import Mathlib

/-!
Shallow embedding of the SEP source-extraction core (repository `sep`).
The repository ships only the public header `src/sep.h` and the matched-filter
documentation `docs/filter.rst`; the C implementation files are not part of the
checkout, so the algorithmic content below is modelled from the natural-language
specification (spec.md) and the header's documented contracts.  Machine floating
point is modelled by exact arithmetic: `ℚ` wherever the code computes and
compares finite values, and `ℝ` where square roots or arctangents appear.
-/

namespace Sep

/-- datatype codes from sep.h lines 33-36 -/
def SEP_TBYTE : ℕ := 11

/-- native int type code from sep.h -/
def SEP_TINT : ℕ := 31

/-- float type code from sep.h -/
def SEP_TFLOAT : ℕ := 42

/-- double type code from sep.h -/
def SEP_TDOUBLE : ℕ := 82

/-- flag: object is result of deblending (sep.h line 39) -/
def SEP_OBJ_MERGED : ℕ := 1

/-- flag: object truncated at image boundary (sep.h line 40) -/
def SEP_OBJ_TRUNC : ℕ := 2

/-- flag: not currently used, but could be (sep.h line 41) -/
def SEP_OBJ_DOVERFLOW : ℕ := 4

/-- flag: x,y fully correlated (sep.h line 42) -/
def SEP_OBJ_SINGU : ℕ := 8

/-- noise interpretation: no noise (sep.h line 49) -/
def SEP_NOISE_NONE : ℕ := 0

/-- noise interpretation: standard deviation (sep.h line 50) -/
def SEP_NOISE_STDDEV : ℕ := 1

/-- noise interpretation: variance (sep.h line 51) -/
def SEP_NOISE_VAR : ℕ := 2

/-- threshold in units of standard deviations (sep.h line 57) -/
def SEP_THRESH_REL : ℕ := 0

/-- threshold in absolute data values (sep.h line 58) -/
def SEP_THRESH_ABS : ℕ := 1

/-- filter type: plain convolution (sep.h line 61) -/
def SEP_FILTER_CONV : ℕ := 0

/-- filter type: noise-weighted matched filter (sep.h line 62) -/
def SEP_FILTER_MATCHED : ℕ := 1

/-- Modelled from the spec (§6 error channel): status codes returned by fallible
operations.  The header in src does not list numeric values for these kinds, so
distinct nonzero values are chosen here; only their distinctness matters. -/
def ALLOC_FAIL : ℕ := 1

/-- Modelled from the spec (§6): pixel stack exhausted during extraction. -/
def PIXSTACK_FULL : ℕ := 2

/-- Modelled from the spec (§6): sub-object cap exceeded while deblending. -/
def DEBLEND_OVERFLOW : ℕ := 3

/-- Modelled from the spec (§6): provisional-object table exhausted. -/
def OBJECTS_LIMIT : ℕ := 4

/-- Modelled from the spec (§6): unsupported element type. -/
def UNSUPPORTED_DTYPE : ℕ := 5

/-- Modelled from the spec (§6): illegal argument (e.g. W < bw for background). -/
def ILLEGAL_ARG : ℕ := 6

/-- Modelled from the spec (§6): relative threshold requested without noise. -/
def RELTHRESH_NO_NOISE : ℕ := 7

/-- invalid-pixel sentinel bound: pixels with value ≤ -1e30 are ignored
(sep.h lines 149-150; NaN, the other sentinel, has no ℚ counterpart). -/
def sentinelBound : ℚ := -(10 ^ 30)

/-- The supported element type codes (spec §3: u8, i32, f32, f64). -/
def supportedDtypes : List ℕ := [SEP_TBYTE, SEP_TINT, SEP_TFLOAT, SEP_TDOUBLE]

/-- sep_image (sep.h lines 71-89): an immutable image view.  Data, noise and
mask arrays are row-major lists of length w*h; the multi-dtype read path of the
C code is modelled by reading exact rationals directly (spec §3 says dispatch
happens once at the image-read boundary). -/
structure sep_image where
  data : List ℚ
  noise : Option (List ℚ)
  mask : Option (List ℚ)
  dtype : ℕ
  w : ℕ
  h : ℕ
  noiseval : ℚ
  noise_type : ℕ
  maskthresh : ℚ
  deriving DecidableEq

/-- Read the image sample at linear pixel index p (spec §3: pixel (x,y) is
encoded as y·W + x). -/
def pix (img : sep_image) (p : ℕ) : ℚ := img.data.getD p 0

/-- A pixel is masked when mask > maskthresh (sep.h line 88). -/
def masked (img : sep_image) (p : ℕ) : Bool :=
  match img.mask with
  | none => false
  | some m => decide (img.maskthresh < m.getD p 0)

/-- A pixel is an invalid sentinel when its value is ≤ -1e30 (sep.h line 149). -/
def sentinel (img : sep_image) (p : ℕ) : Bool :=
  decide (pix img p ≤ sentinelBound)

/-- A pixel participates in estimation when neither masked nor sentinel. -/
def validPix (img : sep_image) (p : ℕ) : Bool :=
  !masked img p && !sentinel img p

/-- Per-pixel noise variance σ² at pixel p.  The noise array (or the scalar
fallback `noiseval`, sep.h line 85) is interpreted as a standard deviation or
as a variance according to `noise_type` (sep.h lines 49-51); carrying σ²
keeps the matched-filter arithmetic exact. -/
def sigma2 (img : sep_image) (p : ℕ) : ℚ :=
  match img.noise with
  | some nz => if img.noise_type = SEP_NOISE_VAR then nz.getD p 0 else (nz.getD p 0) ^ 2
  | none => if img.noise_type = SEP_NOISE_VAR then img.noiseval else img.noiseval ^ 2

/-!  ### Filter engine (spec §4.2, docs/filter.rst)  -/

/-- List of kernel positions (k, l) of a cw×ch kernel, raster order. -/
def kpos (cw ch : ℕ) : List (ℕ × ℕ) :=
  (List.range (cw * ch)).map (fun t => (t % cw, t / cw))

/-- Kernel coefficient K_{kl} of the row-major kernel array (sep.h line 236). -/
def kval (K : List ℚ) (cw : ℕ) (q : ℕ × ℕ) : ℚ :=
  K.getD (q.2 * cw + q.1) 0

/-- Image x coordinate addressed by kernel column k at image column i; the
kernel is centred, so the offset is k - cw/2. -/
def ktx (i k cw : ℕ) : ℤ := (i : ℤ) + (k : ℤ) - ((cw / 2 : ℕ) : ℤ)

/-- Linear image index addressed by kernel position q = (k, l) at pixel (i, j);
meaningful only when `kin` below holds. -/
def ktgt (img : sep_image) (cw ch i j : ℕ) (q : ℕ × ℕ) : ℕ :=
  (ktx j q.2 ch).toNat * img.w + (ktx i q.1 cw).toNat

/-- Kernel position q lands inside the image at centre pixel (i, j). -/
def kin (img : sep_image) (cw ch i j : ℕ) (q : ℕ × ℕ) : Bool :=
  decide (0 ≤ ktx i q.1 cw ∧ ktx i q.1 cw < (img.w : ℤ) ∧
          0 ≤ ktx j q.2 ch ∧ ktx j q.2 ch < (img.h : ℤ))

/-- Kernel position q contributes to the matched-filter sums at (i, j): its
footprint falls on the image and the addressed pixel is neither masked nor
sentinel (spec §4.2 matched mode: such positions are excluded from both sums). -/
def kok (img : sep_image) (cw ch i j : ℕ) (q : ℕ × ℕ) : Bool :=
  kin img cw ch i j q && validPix img (ktgt img cw ch i j q)

/-- One accumulation step of the matched filter: a usable kernel position adds
K·D/σ² to the numerator t and K²/σ² to the normalization n²; an excluded
position adds nothing (spec §4.2 matched mode). -/
def mstep (img : sep_image) (K : List ℚ) (cw ch i j : ℕ)
    (acc : ℚ × ℚ) (q : ℕ × ℕ) : ℚ × ℚ :=
  if kok img cw ch i j q then
    (acc.1 + kval K cw q * pix img (ktgt img cw ch i j q) / sigma2 img (ktgt img cw ch i j q),
     acc.2 + (kval K cw q) ^ 2 / sigma2 img (ktgt img cw ch i j q))
  else acc

/-- Modelled from the spec (§4.2 matched mode; the filter engine source is not
in the checkout): the accumulated pair (t, n²) of the noise-weighted matched
filter at pixel (i, j), scanning every kernel position and skipping excluded
ones. -/
def matched_tn (img : sep_image) (K : List ℚ) (cw ch i j : ℕ) : ℚ × ℚ :=
  (kpos cw ch).foldl (mstep img K cw ch i j) (0, 0)

/-- Modelled from the spec (§4.2): the matched-filter detection image value
D' = t / √(n²). -/
noncomputable def matchedD (img : sep_image) (K : List ℚ) (cw ch i j : ℕ) : ℝ :=
  ((matched_tn img K cw ch i j).1 : ℝ) / Real.sqrt ((matched_tn img K cw ch i j).2 : ℝ)

/-- The set of kernel positions that are included in the matched-filter sums at
centre pixel (i, j). -/
def kincl (img : sep_image) (cw ch i j : ℕ) : Finset (ℕ × ℕ) :=
  (Finset.range cw ×ˢ Finset.range ch).filter (fun q => kok img cw ch i j q = true)


/-!  ### Partitioning a pixel list by a labelling function

The segmenter assigns each above-threshold pixel a provisional object (via the
union-find of spec §4.3) and the catalog groups pixels by the final label.  The
lemmas here show that grouping by any labelling function yields lists whose
concatenation is a permutation of the scanned pixel list. -/

/-- Group the elements of l into classes sharing the same key f x, one class
per distinct key. -/
def partitionByKey {α β : Type} [DecidableEq α] [DecidableEq β]
    (f : α → β) (l : List α) : List (List α) :=
  ((l.map f).dedup).map (fun k => l.filter (fun x => decide (f x = k)))


/-!  ### Extraction parameters and tuning knobs  -/

/-- Parameters of sep_extract (sep.h lines 231-246). -/
structure ExtractParams where
  thresh : ℚ
  thresh_type : ℕ
  minarea : ℕ
  conv : Option (List ℚ)
  convw : ℕ
  convh : ℕ
  filter_type : ℕ
  deblend_nthresh : ℕ
  deblend_cont : ℚ
  clean_flag : Bool
  clean_param : ℚ
  deriving DecidableEq

/-- The three process-wide tuning knobs (sep.h lines 249-259, spec §5), read at
extraction entry. -/
structure Knobs where
  pixstack : ℕ
  object_limit : ℕ
  sub_object_limit : ℕ
  deriving DecidableEq

/-- Plain convolution value at centre (i, j): Σ K·D with out-of-image pixels
treated as zero (spec §4.2 conv mode). -/
def convAt (img : sep_image) (K : List ℚ) (cw ch i j : ℕ) : ℚ :=
  ((kpos cw ch).map (fun q =>
    if kin img cw ch i j q then kval K cw q * pix img (ktgt img cw ch i j q) else 0)).sum

/-- The working detection value at pixel p for the single-valued filter paths:
the raw sample when no kernel is supplied, otherwise the convolved sample.
Deblending and the photometric sums read the convolved image through this
function (spec §3: v is the convolved value for detection moments). -/
def detValue (img : sep_image) (par : ExtractParams) (p : ℕ) : ℚ :=
  match par.conv with
  | none => pix img p
  | some K => convAt img K par.convw par.convh (p % img.w) (p / img.w)

/-- Decide c > thr·σ with σ = √s2 by the exact squared comparison
(valid for thr ≥ 0, the regime of detection thresholds). -/
def relAbove (c thr s2 : ℚ) : Bool := decide (0 < c ∧ thr ^ 2 * s2 < c ^ 2)

/-- Decide t/√n2 > thr by the exact squared comparison (valid for thr ≥ 0). -/
def matchedAbove (t n2 thr : ℚ) : Bool := decide (0 < t ∧ thr ^ 2 * n2 < t ^ 2)

/-- Modelled from the spec (§4.2, §4.3; the filtering/thresholding source is
not in the checkout): the detection test for pixel p.  With a kernel and a
noise array in matched mode the matched-filter SNR is compared with the
threshold; otherwise the (convolved) value is compared with an absolute
threshold, or with thresh·σ(p) when the threshold is relative.  Masked and
sentinel pixels never detect. -/
def aboveAt (img : sep_image) (par : ExtractParams) (p : ℕ) : Bool :=
  validPix img p &&
  (match par.conv, img.noise, decide (par.filter_type = SEP_FILTER_MATCHED) with
   | some K, some _, true =>
       matchedAbove (matched_tn img K par.convw par.convh (p % img.w) (p / img.w)).1
         (matched_tn img K par.convw par.convh (p % img.w) (p / img.w)).2 par.thresh
   | _, _, _ =>
       if par.thresh_type = SEP_THRESH_ABS then decide (par.thresh < detValue img par p)
       else relAbove (detValue img par p) par.thresh (sigma2 img p))

/-- Modelled from the spec (§4.4 step 1 and sep.h lines 226-228): the absolute
detection threshold recorded in catalog entries and used as the base of the
deblending ladder.  With no noise array and a relative threshold it is
thresh·noiseval (the scalar noise value; a scalar variance is modelled with the
same scaling); otherwise the supplied threshold is used. -/
def ladderBase (img : sep_image) (par : ExtractParams) : ℚ :=
  if img.noise = none ∧ par.thresh_type = SEP_THRESH_REL then par.thresh * img.noiseval
  else par.thresh

/-!  ### Segmenter (spec §4.3)  -/

/-- The four previously processed neighbours (W, NW, N, NE) of pixel p in the
raster scan (spec §4.3). -/
def neighbors4 (w p : ℕ) : List ℕ :=
  (if 0 < p % w then [p - 1] else []) ++
  (if 0 < p / w ∧ 0 < p % w then [p - w - 1] else []) ++
  (if 0 < p / w then [p - w] else []) ++
  (if 0 < p / w ∧ p % w + 1 < w then [p - w + 1] else [])

/-- Follow union-find parent pointers for at most `fuel` steps. -/
def ufRoot (par : ℕ → ℕ) : ℕ → ℕ → ℕ
  | 0, p => p
  | fuel + 1, p => if par p = p then p else ufRoot par fuel (par p)

/-- Functional update of a parent map. -/
def ufSet (par : ℕ → ℕ) (a b : ℕ) : ℕ → ℕ := fun q => if q = a then b else par q

/-- Merge the classes of all listed pixels into the class rooted at r. -/
def ufUnionList (fuel : ℕ) (r : ℕ) : (ℕ → ℕ) → List ℕ → (ℕ → ℕ)
  | par, [] => par
  | par, q :: t => ufUnionList fuel r (ufSet par (ufRoot par fuel q) r) t

/-- One raster-scan step (spec §4.3): pixel p above threshold looks at its four
previously processed neighbours; with no detected neighbour it starts a new
provisional object (stays its own parent), otherwise it joins the first
neighbour's object and the remaining neighbours' objects are merged into it by
union-find. -/
def scanStep (w : ℕ) (above : ℕ → Bool) (fuel : ℕ) (par : ℕ → ℕ) (p : ℕ) : ℕ → ℕ :=
  match (neighbors4 w p).filter above with
  | [] => par
  | q :: t =>
      let r := ufRoot par fuel q
      ufUnionList fuel r (ufSet par p r) t

/-- Modelled from the spec (§4.3; the Lutz scanner source is not in the
checkout): the union-find parent map produced by scanning the listed pixels in
raster order. -/
def buildUF (w : ℕ) (above : ℕ → Bool) (pixels : List ℕ) : ℕ → ℕ :=
  pixels.foldl (fun par p => scanStep w above (pixels.length + 1) par p) id

/-- The final label (union-find root) of each pixel after the scan. -/
def labelFn (w : ℕ) (above : ℕ → Bool) (pixels : List ℕ) : ℕ → ℕ :=
  fun p => ufRoot (buildUF w above pixels) (pixels.length + 1) p

/-- The list of detected pixels, in raster order. -/
def abovePixList (img : sep_image) (par : ExtractParams) : List ℕ :=
  (List.range (img.w * img.h)).filter (aboveAt img par)

/-!  ### Provisional objects, deblending (spec §4.4) and cleaning  -/

/-- A provisional object between segmentation and measurement: its owned pixel
list and whether it emerged from deblending a larger parent. -/
structure PObj where
  pix : List ℕ
  merged : Bool
  deriving DecidableEq

/-- Modelled from the spec (§4.4 steps 1-5; the deblender source is not in the
checkout): deblending of one finalized object, with the threshold ladder
modelled by its first geometric rung t₁ = 2·(detection threshold).  The
object's member pixels above t₁ are re-segmented with connectivity restricted
to the object; sub-objects whose integrated flux reaches deblend_cont of the
parent flux are promoted (else their pixels remain with the parent), promoted
children carry SEP_OBJ_MERGED, and the parent's below-t₁ pixels are
redistributed to the surviving children (assigned to the first child; the
spec's Gaussian-weighted assignment changes only which child receives them).
More than sub_object_limit sub-objects abort with DEBLEND_OVERFLOW. -/
def deblendHip (img : sep_image) (par : ExtractParams) (o : PObj) : List ℕ :=
  o.pix.filter (fun p => decide (2 * ladderBase img par < detValue img par p))

/-- The sub-objects of one deblending rung: the object's above-t₁ pixels
re-segmented with connectivity restricted to the object's own pixels. -/
def deblendSubs (img : sep_image) (par : ExtractParams) (o : PObj) : List (List ℕ) :=
  partitionByKey
    (labelFn img.w (fun q => decide (q ∈ deblendHip img par o)) (deblendHip img par o))
    (deblendHip img par o)

/-- The sub-objects whose integrated flux reaches deblend_cont of the parent
flux (spec §4.4 step 3). -/
def deblendPromoted (img : sep_image) (par : ExtractParams) (o : PObj) : List (List ℕ) :=
  (deblendSubs img par o).filter (fun g =>
    decide (par.deblend_cont * (o.pix.map (fun p => detValue img par p)).sum
      ≤ (g.map (fun p => detValue img par p)).sum))

def deblendOne (img : sep_image) (par : ExtractParams) (kn : Knobs) (o : PObj) :
    Except ℕ (List PObj) :=
  if par.deblend_nthresh ≤ 1 then .ok [o]
  else if kn.sub_object_limit < (deblendSubs img par o).length then
    .error DEBLEND_OVERFLOW
  else
    match deblendPromoted img par o with
    | [] => .ok [o]
    | [_] => .ok [o]
    | g0 :: gs =>
        .ok (⟨g0 ++ o.pix.filter (fun p => decide (p ∉ (g0 :: gs).flatten)), true⟩
          :: gs.map (fun g => (⟨g, true⟩ : PObj)))

/-- Deblend every finalized object in turn (spec §4.3: finalization schedules
the deblender), concatenating the resulting detections. -/
def deblendAll (img : sep_image) (par : ExtractParams) (kn : Knobs) :
    List PObj → Except ℕ (List PObj)
  | [] => .ok []
  | o :: t =>
      match deblendOne img par kn o with
      | .error e => .error e
      | .ok cs =>
          match deblendAll img par kn t with
          | .error e => .error e
          | .ok rest => .ok (cs ++ rest)

/-!  ### Measurement (spec §3 object record, §4.4 ellipse derivation)  -/

/-- One catalog entry (sep_catalog, sep.h lines 114-137).  The ellipse
parameters a, b, theta and the coefficient form are exposed through
objA/objB/objTheta below, since they involve square roots; peak-pixel
coordinates and moment errors are omitted from the model. -/
structure SepObj where
  thresh : ℚ
  npix : ℕ
  tnpix : ℕ
  xmin : ℕ
  xmax : ℕ
  ymin : ℕ
  ymax : ℕ
  x : ℚ
  y : ℚ
  x2 : ℚ
  y2 : ℚ
  xy : ℚ
  cflux : ℚ
  flux : ℚ
  cpeak : ℚ
  peak : ℚ
  flag : ℕ
  pix : List ℕ
  deriving DecidableEq

/-- The result of sep_extract (sep.h lines 109-137): a catalog of objects plus
the concatenated per-object pixel-index buffer `objectspix`. -/
structure sep_catalog where
  objects : List SepObj
  objectspix : List ℕ
  deriving DecidableEq

/-- Number of objects in a catalog (sep_catalog.nobj). -/
def nobj (c : sep_catalog) : ℕ := c.objects.length

/-- Maximum of a rational list (0 for the empty list, which does not occur for
catalog objects). -/
def listMax (l : List ℚ) : ℚ :=
  match l with
  | [] => 0
  | x :: t => t.foldl max x

/-- Minimum of a list of naturals (0 for the empty list). -/
def listMinN (l : List ℕ) : ℕ :=
  match l with
  | [] => 0
  | x :: t => t.foldl min x

/-- Maximum of a list of naturals (0 for the empty list). -/
def listMaxN (l : List ℕ) : ℕ :=
  match l with
  | [] => 0
  | x :: t => t.foldl max x

/-- An object touches the image border when one of its pixels lies on column 0,
column W-1, row 0 or row H-1 (spec §4.4 step 5). -/
def touchesBorder (img : sep_image) (l : List ℕ) : Bool :=
  l.any (fun p =>
    decide (p % img.w = 0 ∨ p % img.w + 1 = img.w ∨ p / img.w = 0 ∨ p / img.w + 1 = img.h))

/-- Modelled from the spec (§3 object record and catalog; the measurement
source is not in the checkout): the catalog entry of a surviving object.
Detection moments weight the convolved value, photometric flux and peak also
read the raw image; second moments are accumulated centrally, which agrees
exactly with the sum-then-subtract form in exact arithmetic.  The flag is the
bitwise or of MERGED (object emerged from deblending), TRUNC (member pixel on
the border) and SINGU (singular second moments, spec §4.4). -/
def measureObj (img : sep_image) (par : ExtractParams) (o : PObj) : SepObj :=
  let w := img.w
  let cv := fun p => detValue img par p
  let rv := fun p => pix img p
  let cflux := (o.pix.map cv).sum
  let xbar := (o.pix.map (fun p => cv p * ((p % w : ℕ) : ℚ))).sum / cflux
  let ybar := (o.pix.map (fun p => cv p * ((p / w : ℕ) : ℚ))).sum / cflux
  let x2 := (o.pix.map (fun p => cv p * (((p % w : ℕ) : ℚ) - xbar) ^ 2)).sum / cflux
  let y2 := (o.pix.map (fun p => cv p * (((p / w : ℕ) : ℚ) - ybar) ^ 2)).sum / cflux
  let xy := (o.pix.map (fun p =>
    cv p * ((((p % w : ℕ) : ℚ) - xbar) * (((p / w : ℕ) : ℚ) - ybar)))).sum / cflux
  let base := ladderBase img par
  { thresh := base
    npix := o.pix.length
    tnpix := (o.pix.filter (fun p => decide (base < rv p))).length
    xmin := listMinN (o.pix.map (· % w))
    xmax := listMaxN (o.pix.map (· % w))
    ymin := listMinN (o.pix.map (· / w))
    ymax := listMaxN (o.pix.map (· / w))
    x := xbar
    y := ybar
    x2 := x2
    y2 := y2
    xy := xy
    cflux := cflux
    flux := (o.pix.map rv).sum
    cpeak := listMax (o.pix.map cv)
    peak := listMax (o.pix.map rv)
    flag := (if o.merged then SEP_OBJ_MERGED else 0)
        ||| (if touchesBorder img o.pix then SEP_OBJ_TRUNC else 0)
        ||| (if x2 * y2 - xy ^ 2 ≤ 0 then SEP_OBJ_SINGU else 0)
    pix := o.pix }

/-!  ### Cleaning (spec §4.4 Cleaning)  -/

/-- Modelled from the spec (§4.4 Cleaning): B's barycentre lies inside A's
clean_param-scaled second-moment ellipse (Mahalanobis test, using the exact
inverse-covariance form y2·dx² + x2·dy² − 2·xy·dx·dy < clean_param·(x2·y2−xy²),
testable only when the moments are non-singular). -/
def mahalInside (par : ExtractParams) (mA mB : SepObj) : Bool :=
  let d := mA.x2 * mA.y2 - mA.xy ^ 2
  let dx := mB.x - mA.x
  let dy := mB.y - mA.y
  decide (0 < d ∧ mA.y2 * dx ^ 2 + mA.x2 * dy ^ 2 - 2 * mA.xy * dx * dy < par.clean_param * d)

/-- Modelled from the spec (§4.4 Cleaning): A absorbs B when A's integrated
flux exceeds B's and B sits inside A's scaled ellipse; the spec's
"significantly fainter" is modelled by the flux ordering itself. -/
def shouldAbsorb (img : sep_image) (par : ExtractParams) (A B : PObj) : Bool :=
  let mA := measureObj img par A
  let mB := measureObj img par B
  decide (mB.cflux < mA.cflux) && mahalInside par mA mB

/-- Absorption: the brighter object keeps its identity and appends the fainter
object's pixels (spec §4.4 Cleaning: its pixels are appended, B is dropped). -/
def mergeObj (A B : PObj) : PObj := ⟨A.pix ++ B.pix, A.merged⟩

/-- Let A absorb every object in the list it should absorb (in either
direction of the pairwise test, the brighter absorbing), returning the enlarged
A and the survivors. -/
def absorbInto (img : sep_image) (par : ExtractParams) : PObj → List PObj → PObj × List PObj
  | A, [] => (A, [])
  | A, B :: t =>
      if shouldAbsorb img par A B then absorbInto img par (mergeObj A B) t
      else if shouldAbsorb img par B A then absorbInto img par (mergeObj B A) t
      else ((absorbInto img par A t).1, B :: (absorbInto img par A t).2)

/-- One cleaning pass over the object list (fuelled structural recursion). -/
def cleanPassF (img : sep_image) (par : ExtractParams) : ℕ → List PObj → List PObj
  | 0, objs => objs
  | _ + 1, [] => []
  | f + 1, A :: rest =>
      (absorbInto img par A rest).1
        :: cleanPassF img par f (absorbInto img par A rest).2

/-- Modelled from the spec (§4.4 Cleaning: iterate until no further removals
occur): repeat cleaning passes until the object list is stable, with enough
fuel that a fixpoint is always reached (every unstable pass removes an
object). -/
def cleanLoop (img : sep_image) (par : ExtractParams) : ℕ → List PObj → List PObj
  | 0, objs => objs
  | f + 1, objs =>
      if cleanPassF img par objs.length objs = objs then objs
      else cleanLoop img par f (cleanPassF img par objs.length objs)

/-!  ### sep_extract (sep.h lines 216-246, spec §4.3-§4.4, §7)  -/

/-- Modelled from the spec (§4.2-§4.4 pipeline, §5 resource model, §7 error
design; the extractor source is not in the checkout): full extraction.
Argument validation (relative threshold without any noise) happens before
work begins; the detected pixel total is charged against the pixel stack and
the provisional-object count against the object limit (spec §4.3: exhaustion
fails with PIXSTACK_FULL / OBJECTS_LIMIT without corrupting earlier state);
survivors of the minimum-area test are deblended, optionally cleaned, and
measured into the catalog. -/
def segGroups (img : sep_image) (par : ExtractParams) : List (List ℕ) :=
  partitionByKey (labelFn img.w (aboveAt img par) (abovePixList img par))
    (abovePixList img par)

/-- The provisional objects that pass the minimum-area test (spec §6: minimum
area in pixels, default 5). -/
def keptGroups (img : sep_image) (par : ExtractParams) : List PObj :=
  ((segGroups img par).filter (fun g => decide (par.minarea ≤ g.length))).map
    (fun g => (⟨g, false⟩ : PObj))

/-- The surviving objects after the optional cleaning pass (spec §4.4). -/
def cleanedObjs (img : sep_image) (par : ExtractParams) (objs : List PObj) : List PObj :=
  if par.clean_flag then cleanLoop img par (objs.length + 1) objs else objs

/-- Assemble the catalog from the surviving objects: measure each and
concatenate the per-object pixel-index lists into `objectspix`. -/
def finishCatalog (img : sep_image) (par : ExtractParams) (objs : List PObj) :
    sep_catalog :=
  ⟨(cleanedObjs img par objs).map (measureObj img par),
   (((cleanedObjs img par objs).map (measureObj img par)).map SepObj.pix).flatten⟩

def sep_extract (img : sep_image) (par : ExtractParams) (kn : Knobs) :
    Except ℕ sep_catalog :=
  if img.noise = none ∧ par.thresh_type = SEP_THRESH_REL
      ∧ img.noise_type = SEP_NOISE_NONE then
    .error RELTHRESH_NO_NOISE
  else if kn.pixstack < (abovePixList img par).length then .error PIXSTACK_FULL
  else if kn.object_limit < (segGroups img par).length then .error OBJECTS_LIMIT
  else
    match deblendAll img par kn (keptGroups img par) with
    | .error e => .error e
    | .ok objs => .ok (finishCatalog img par objs)

/-!  ### Ellipse parameters (spec §4.4 last paragraph, sep.h lines 485-502)  -/

/-- Modelled from the spec (§4.4): the radius of the minimum-radius disk that
singular objects fall back to; the spec does not fix its value. -/
noncomputable def minRadius : ℝ := 1 / 2

/-- Two-argument arctangent atan2(y, x): the argument of x + i·y, in (-π, π]. -/
noncomputable def atan2 (y x : ℝ) : ℝ := Complex.arg ⟨x, y⟩

/-- The singularity test of spec §4.4: μ20·μ02 − μ11² ≤ 0. -/
def singuTest (o : SepObj) : Prop := o.x2 * o.y2 - o.xy ^ 2 ≤ 0

instance (o : SepObj) : Decidable (singuTest o) := by
  unfold singuTest; infer_instance

/-- Modelled from the spec (§4.4): semi-major axis of a catalog object,
a = √((μ20+μ02)/2 + √(((μ20−μ02)/2)² + μ11²)); singular objects fall back to
the minimum-radius disk. -/
noncomputable def objA (o : SepObj) : ℝ :=
  if singuTest o then minRadius
  else Real.sqrt ((((o.x2 + o.y2) / 2 : ℚ) : ℝ)
    + Real.sqrt (((((o.x2 - o.y2) / 2) ^ 2 + o.xy ^ 2 : ℚ) : ℝ)))

/-- Modelled from the spec (§4.4): semi-minor axis, as objA with the inner
square root subtracted. -/
noncomputable def objB (o : SepObj) : ℝ :=
  if singuTest o then minRadius
  else Real.sqrt ((((o.x2 + o.y2) / 2 : ℚ) : ℝ)
    - Real.sqrt (((((o.x2 - o.y2) / 2) ^ 2 + o.xy ^ 2 : ℚ) : ℝ)))

/-- Modelled from the spec (§4.4): position angle θ = ½·atan2(2μ11, μ20−μ02);
0 for the singular fallback disk. -/
noncomputable def objTheta (o : SepObj) : ℝ :=
  if singuTest o then 0
  else atan2 (((2 * o.xy : ℚ) : ℝ)) (((o.x2 - o.y2 : ℚ) : ℝ)) / 2

/-- sep_ellipse_coeffs (sep.h lines 500-502): the coefficients of the quadratic
form cxx·x'² + cyy·y'² + cxy·x'·y' whose r = 1 level set is the ellipse with
semi-axes a, b and position angle theta (counter-clockwise from +x, sep.h
lines 485-495). -/
noncomputable def sep_ellipse_coeffs (a b theta : ℝ) : ℝ × ℝ × ℝ :=
  (Real.cos theta ^ 2 / a ^ 2 + Real.sin theta ^ 2 / b ^ 2,
   Real.sin theta ^ 2 / a ^ 2 + Real.cos theta ^ 2 / b ^ 2,
   2 * Real.cos theta * Real.sin theta * (1 / a ^ 2 - 1 / b ^ 2))

/-- Modelled from the spec (§8 round-trip property and the quadratic form of
sep.h lines 485-499; ellipse.c is not in the checkout): recover the axis
representation from coefficients by principal-axis extraction. -/
noncomputable def sep_ellipse_axes (cxx cyy cxy : ℝ) : ℝ × ℝ × ℝ :=
  (1 / Real.sqrt ((cxx + cyy) / 2
      - Real.sqrt (((cxx - cyy) / 2) ^ 2 + (cxy / 2) ^ 2)),
   1 / Real.sqrt ((cxx + cyy) / 2
      + Real.sqrt (((cxx - cyy) / 2) ^ 2 + (cxy / 2) ^ 2)),
   atan2 (-cxy) (cyy - cxx) / 2)

/-!  ### Background estimator (spec §4.1, sep.h lines 140-212)  -/

/-- Mean of a list of samples (0 for the empty list). -/
def meanQ (l : List ℚ) : ℚ := l.sum / l.length

/-- Biased variance Σ(x − mean)²/n of a list (0 for the empty list); the tile
σ of the C struct is its square root. -/
def varQ (l : List ℚ) : ℚ := (l.map (fun x => (x - meanQ l) ^ 2)).sum / l.length

/-- Median of a list: the lower-middle element of the sorted list (0 when
empty). -/
def medianQ (l : List ℚ) : ℚ :=
  (List.insertionSort (· ≤ ·) l).getD ((l.length - 1) / 2) 0

/-- One 3σ clipping iteration (spec §4.1): keep samples within mean ± 3σ,
decided exactly as (x − mean)² ≤ 9·σ². -/
def clipOnce (l : List ℚ) : List ℚ :=
  l.filter (fun x => decide ((x - meanQ l) ^ 2 ≤ 9 * varQ l))

/-- Modelled from the spec (§4.1): iterated rejection until convergence
(σ stable, equivalently σ² stable in exact arithmetic) or a bounded iteration
cap. -/
def clipLoop : ℕ → List ℚ → List ℚ
  | 0, l => l
  | f + 1, l =>
      let l' := clipOnce l
      if varQ l' = varQ l then l' else clipLoop f l'

/-- The clipping iteration cap of spec §4.1. -/
def clipIterCap : ℕ := 10

/-- Modelled from the spec (§4.1): the tile background value after clipping;
when the clipped distribution is skewed (|mean − median|/σ > 0.3, tested
exactly as (mean − median)² > 0.09·σ², which agrees for σ ≥ 0) the mean is
replaced by the mode estimate 2.5·median − 1.5·mean. -/
def tileBack (l : List ℚ) : ℚ :=
  if (meanQ l - medianQ l) ^ 2 > (9 / 100) * varQ l
  then (5 / 2) * medianQ l - (3 / 2) * meanQ l
  else meanQ l

/-- Clipped per-tile statistics: (back value, variance). -/
def tileStats (l : List ℚ) : ℚ × ℚ :=
  (tileBack (clipLoop clipIterCap l), varQ (clipLoop clipIterCap l))

/-- Number of background tiles along a dimension: ⌈W/bw⌉ (spec §4.1, edge
tiles truncated). -/
def nTiles (w bw : ℕ) : ℕ := (w + bw - 1) / bw

/-- The linear pixel indices of tile (tx, ty): the bw×bh rectangle clipped to
the image (spec §4.1, edge tiles truncated). -/
def tileIdx (img : sep_image) (bw bh tx ty : ℕ) : List ℕ :=
  ((List.range (min bh (img.h - ty * bh))).map (fun dy =>
    (List.range (min bw (img.w - tx * bw))).map (fun dx =>
      (ty * bh + dy) * img.w + (tx * bw + dx)))).flatten

/-- The usable samples of tile (tx, ty): the non-masked, non-sentinel pixels of
the bw×bh rectangle clipped to the image (spec §4.1). -/
def tileSamples (img : sep_image) (bw bh tx ty : ℕ) : List ℚ :=
  ((tileIdx img bw bh tx ty).filter (validPix img)).map (pix img)

/-- Modelled from the spec (§4.1): per-tile statistics across the grid; a tile
with no usable sample is left unfilled here. -/
def rawTileStats (img : sep_image) (bw bh : ℕ) : List (Option (ℚ × ℚ)) :=
  (List.range (nTiles img.w bw * nTiles img.h bh)).map (fun t =>
    if (tileSamples img bw bh (t % nTiles img.w bw) (t / nTiles img.w bw)).length = 0
    then none
    else some (tileStats (tileSamples img bw bh (t % nTiles img.w bw) (t / nTiles img.w bw))))

/-- Modelled from the spec (§4.1): empty tiles are filled from the populated
tiles; the spec's nearest-populated-tile copy is modelled by its documented
fallback, the global median of the populated tiles. -/
def fillTileStats (img : sep_image) (bw bh : ℕ) : List (ℚ × ℚ) :=
  (rawTileStats img bw bh).map (fun s =>
    s.getD (medianQ (((rawTileStats img bw bh).filterMap id).map Prod.fst),
            medianQ (((rawTileStats img bw bh).filterMap id).map Prod.snd)))

/-- The fw×fh median-filter window values around tile (tx, ty), clipped at the
grid edges. -/
def windowVals (grid : List ℚ) (nx ny fw fh tx ty : ℕ) : List ℚ :=
  ((List.range (min (ty + fh / 2) (ny - 1) + 1 - (ty - fh / 2))).map (fun dy =>
    (List.range (min (tx + fw / 2) (nx - 1) + 1 - (tx - fw / 2))).map (fun dx =>
      grid.getD (((ty - fh / 2) + dy) * nx + ((tx - fw / 2) + dx)) 0))).flatten

/-- Modelled from the spec (§4.1): median filtering of a tile grid; a tile is
replaced by its window median only when |original − median| exceeds
fthresh·(local σ), decided exactly on squares (for fthresh < 0 the test always
fires). -/
def medFilterGrid (grid varGrid : List ℚ) (nx ny fw fh : ℕ) (fthresh : ℚ) : List ℚ :=
  (List.range (nx * ny)).map (fun t =>
    if (grid.getD t 0 - medianQ (windowVals grid nx ny fw fh (t % nx) (t / nx))) ^ 2
          > fthresh ^ 2 * varGrid.getD t 0 ∨ fthresh < 0
    then medianQ (windowVals grid nx ny fw fh (t % nx) (t / nx))
    else grid.getD t 0)

/-- The interior node triples (y_{i-1}, y_i, y_{i+1}) of a node list. -/
def triples : List ℚ → List (ℚ × ℚ × ℚ)
  | a :: b :: c :: t => (a, b, c) :: triples (b :: c :: t)
  | _ => []

/-- Forward sweep of the natural-cubic-spline tridiagonal solve over uniform
node spacing (decomposition factor and u-coefficient per interior node). -/
def splineFwd (a u : ℚ) : List (ℚ × ℚ × ℚ) → List (ℚ × ℚ)
  | [] => []
  | (yl, ym, yr) :: t =>
      ((-(1 : ℚ) / 2) / (a / 2 + 2), (3 * (yr - 2 * ym + yl) - u / 2) / (a / 2 + 2))
        :: splineFwd ((-(1 : ℚ) / 2) / (a / 2 + 2))
            ((3 * (yr - 2 * ym + yl) - u / 2) / (a / 2 + 2)) t

/-- Back substitution over the reversed coefficient list, propagating the next
second derivative (0 at the natural boundary). -/
def splineBwd (nxt : ℚ) : List (ℚ × ℚ) → List ℚ
  | [] => []
  | (a, u) :: t => (a * nxt + u) :: splineBwd (a * nxt + u) t

/-- Modelled from the spec (§4.1): natural-cubic-spline second derivatives of a
node list (uniform spacing, natural boundary conditions). -/
def spline_d2 (ys : List ℚ) : List ℚ :=
  if ys.length ≤ 1 then List.replicate ys.length 0
  else 0 :: ((splineBwd 0 ((splineFwd 0 0 (triples ys)).reverse)).reverse ++ [0])

/-- Cubic-spline evaluation at grid coordinate u over nodes ys with second
derivatives d2: A·y_lo + B·y_hi + ((A³−A)·d2_lo + (B³−B)·d2_hi)/6 on the
clamped bracketing interval. -/
def splineKlo (ys : List ℚ) (u : ℚ) : ℕ :=
  min (Int.toNat ⌊u⌋) (ys.length - 2)

def splineEval (ys d2 : List ℚ) (u : ℚ) : ℚ :=
  if ys.length = 0 then 0
  else if ys.length = 1 then ys.getD 0 0
  else
    (((splineKlo ys u + 1 : ℕ) : ℚ) - u) * ys.getD (splineKlo ys u) 0
      + (u - ((splineKlo ys u : ℕ) : ℚ)) * ys.getD (splineKlo ys u + 1) 0
      + (((((splineKlo ys u + 1 : ℕ) : ℚ) - u) ^ 3 - (((splineKlo ys u + 1 : ℕ) : ℚ) - u))
            * d2.getD (splineKlo ys u) 0
          + ((u - ((splineKlo ys u : ℕ) : ℚ)) ^ 3 - (u - ((splineKlo ys u : ℕ) : ℚ)))
            * d2.getD (splineKlo ys u + 1) 0) / 6

/-- sep_bkg (sep.h lines 96-107).  The σ grids are carried as variances
(sigma2g, globalrms2) so the model's arithmetic stays exact; the C struct's
sigma values are their square roots, and since the median is an order
statistic and √ is monotone the median of the σ grid is √(median variance). -/
structure sep_bkg where
  w : ℕ
  h : ℕ
  bw : ℕ
  bh : ℕ
  nx : ℕ
  ny : ℕ
  back : List ℚ
  sigma2g : List ℚ
  dback : List (List ℚ)
  dsigma2 : List (List ℚ)
  globalv : ℚ
  globalrms2 : ℚ
  deriving DecidableEq

/-- Column tx of a row-major nx×ny grid. -/
def gridCol (grid : List ℚ) (nx ny tx : ℕ) : List ℚ :=
  (List.range ny).map (fun ty => grid.getD (ty * nx + tx) 0)

/-- The median-filtered back-value tile grid (spec §4.1). -/
def bkgBackGrid (img : sep_image) (bw bh fw fh : ℕ) (fthresh : ℚ) : List ℚ :=
  medFilterGrid ((fillTileStats img bw bh).map Prod.fst)
    ((fillTileStats img bw bh).map Prod.snd)
    (nTiles img.w bw) (nTiles img.h bh) fw fh fthresh

/-- The median-filtered tile variance grid (spec §4.1). -/
def bkgVarGrid (img : sep_image) (bw bh fw fh : ℕ) (fthresh : ℚ) : List ℚ :=
  medFilterGrid ((fillTileStats img bw bh).map Prod.snd)
    ((fillTileStats img bw bh).map Prod.snd)
    (nTiles img.w bw) (nTiles img.h bh) fw fh fthresh

/-- Modelled from the spec (§4.1; back.c is not in the checkout): build the
background model — tile statistics, empty-tile fill, median filtering of both
grids, global medians, per-column spline second derivatives. -/
def mkBkg (img : sep_image) (bw bh fw fh : ℕ) (fthresh : ℚ) : sep_bkg :=
  { w := img.w, h := img.h, bw := bw, bh := bh
    nx := nTiles img.w bw, ny := nTiles img.h bh
    back := bkgBackGrid img bw bh fw fh fthresh
    sigma2g := bkgVarGrid img bw bh fw fh fthresh
    dback := (List.range (nTiles img.w bw)).map (fun tx =>
      spline_d2 (gridCol (bkgBackGrid img bw bh fw fh fthresh)
        (nTiles img.w bw) (nTiles img.h bh) tx))
    dsigma2 := (List.range (nTiles img.w bw)).map (fun tx =>
      spline_d2 (gridCol (bkgVarGrid img bw bh fw fh fthresh)
        (nTiles img.w bw) (nTiles img.h bh) tx))
    globalv := medianQ (bkgBackGrid img bw bh fw fh fthresh)
    globalrms2 := medianQ (bkgVarGrid img bw bh fw fh fthresh) }

/-- Words of storage the background model must allocate: four coefficient
arrays over nx·ny tiles (sep_bkg back/dback/sigma/dsigma). -/
def bkgAllocWords (img : sep_image) (bw bh : ℕ) : ℕ :=
  4 * (nTiles img.w bw * nTiles img.h bh)

/-- Modelled from the spec (§4.1 Failure; back.c is not in the checkout):
sep_background (sep.h lines 158-166).  Fails when a tile dimension exceeds the
matching image dimension, when the element type is unsupported, or when the
available heap (modelled as a word budget) cannot hold the model. -/
def sep_background (img : sep_image) (bw bh fw fh : ℕ) (fthresh : ℚ) (heap : ℕ) :
    Except ℕ sep_bkg :=
  if img.w < bw ∨ img.h < bh then .error ILLEGAL_ARG
  else if ¬ img.dtype ∈ supportedDtypes then .error UNSUPPORTED_DTYPE
  else if heap < bkgAllocWords img bw bh then .error ALLOC_FAIL
  else .ok (mkBkg img bw bh fw fh fthresh)

/-- sep_bkg_global (sep.h line 173): the global background level, the median
of the filtered tile values. -/
def sep_bkg_global (b : sep_bkg) : ℚ := b.globalv

/-- sep_bkg_globalrms (sep.h line 174): the global background RMS, the median
tile σ = √(median tile variance). -/
noncomputable def sep_bkg_globalrms (b : sep_bkg) : ℝ := Real.sqrt (b.globalrms2 : ℝ)

/-- Grid coordinate of image row y: tile nodes sit at tile centres, so row y
maps to (y + 1/2)/bh − 1/2 in tile units. -/
def gridCoord (y bh : ℕ) : ℚ := ((y : ℚ) + 1 / 2) / (bh : ℚ) - 1 / 2

/-- Background value at pixel (x, y) by bicubic interpolation: the y-spline
along every tile column gives one node row, splined again across x
(spec §4.1 outputs; sep.h lines 185-191). -/
def bkgAt (b : sep_bkg) (x y : ℕ) : ℚ :=
  splineEval
    ((List.range b.nx).map (fun tx =>
      splineEval (gridCol b.back b.nx b.ny tx) (b.dback.getD tx []) (gridCoord y b.bh)))
    (spline_d2 ((List.range b.nx).map (fun tx =>
      splineEval (gridCol b.back b.nx b.ny tx) (b.dback.getD tx []) (gridCoord y b.bh))))
    (gridCoord x b.bw)

/-- sep_bkg_line (sep.h line 192): the background row at line y. -/
def sep_bkg_line (b : sep_bkg) (y : ℕ) : List ℚ :=
  (List.range b.w).map (fun x => bkgAt b x y)

/-- sep_bkg_subline (sep.h line 193): subtract the background row at line y
from a caller buffer of the given element type. -/
def sep_bkg_subline (b : sep_bkg) (y : ℕ) (line : List ℚ) (dtype : ℕ) :
    Except ℕ (List ℚ) :=
  if ¬ dtype ∈ supportedDtypes then .error UNSUPPORTED_DTYPE
  else .ok ((List.range b.w).map (fun x => line.getD x 0 - bkgAt b x y))

/-- sep_bkg_subarray (sep.h line 205): subtract the whole background image from
a row-major caller buffer of the given element type. -/
def sep_bkg_subarray (b : sep_bkg) (arr : List ℚ) (dtype : ℕ) : Except ℕ (List ℚ) :=
  if ¬ dtype ∈ supportedDtypes then .error UNSUPPORTED_DTYPE
  else .ok (((List.range b.h).map (fun y =>
    (List.range b.w).map (fun x => arr.getD (y * b.w + x) 0 - bkgAt b x y))).flatten)

/-- Row y of an image as a list. -/
def rowOf (img : sep_image) (y : ℕ) : List ℚ :=
  (List.range img.w).map (fun x => pix img (y * img.w + x))

/-!  ### Concrete test inputs  -/

/-- A 3×2 test image with one bright two-pixel column at x = 1. -/
def timg : sep_image :=
  { data := [0, 10, 0, 0, 10, 0], noise := none, mask := none, dtype := SEP_TFLOAT,
    w := 3, h := 2, noiseval := 0, noise_type := SEP_NOISE_NONE, maskthresh := 0 }

/-- Extraction parameters for the test image: absolute threshold 5, no
convolution kernel, cleaning on. -/
def tpar : ExtractParams :=
  { thresh := 5, thresh_type := SEP_THRESH_ABS, minarea := 1, conv := none,
    convw := 0, convh := 0, filter_type := SEP_FILTER_CONV, deblend_nthresh := 32,
    deblend_cont := 5 / 1000, clean_flag := true, clean_param := 1 }

/-- Default-size tuning knobs. -/
def tkn : Knobs := { pixstack := 300000, object_limit := 100000, sub_object_limit := 1024 }

/-- Knobs with an exhausted pixel stack. -/
def tkn4 : Knobs := { pixstack := 1, object_limit := 100000, sub_object_limit := 1024 }

/-- The single object extraction finds in timg: pixels 1 and 4 (the bright
column), flag = TRUNC ||| SINGU. -/
def tobj : SepObj :=
  { thresh := 5, npix := 2, tnpix := 2, xmin := 1, xmax := 1, ymin := 0, ymax := 1,
    x := 1, y := 1 / 2, x2 := 0, y2 := 1 / 4, xy := 0, cflux := 20, flux := 20,
    cpeak := 10, peak := 10, flag := 10, pix := [1, 4] }

/-- The catalog extraction produces on timg. -/
def tcat : sep_catalog := { objects := [tobj], objectspix := [1, 4] }

/-- A 2×2 image constant at value 7. -/
def cimg : sep_image :=
  { data := List.replicate (2 * 2) 7, noise := none, mask := none, dtype := SEP_TFLOAT,
    w := 2, h := 2, noiseval := 0, noise_type := SEP_NOISE_NONE, maskthresh := 0 }

/-- A 1×1 image, smaller than a 2×2 background tile. -/
def bimg : sep_image :=
  { data := [7], noise := none, mask := none, dtype := SEP_TFLOAT,
    w := 1, h := 1, noiseval := 0, noise_type := SEP_NOISE_NONE, maskthresh := 0 }

/-- The test image with no noise array but a scalar standard deviation of 1. -/
def img9 : sep_image :=
  { data := [0, 10, 0, 0, 10, 0], noise := none, mask := none, dtype := SEP_TFLOAT,
    w := 3, h := 2, noiseval := 1, noise_type := SEP_NOISE_STDDEV, maskthresh := 0 }

/-- The test parameters with a relative threshold. -/
def par9 : ExtractParams := { tpar with thresh_type := SEP_THRESH_REL }

/-!  ### Extraction theorems  -/

/-!  ### Generic list lemmas  -/

theorem foldl_if_pair_sum {α : Type} (P : α → Bool) (f g : α → ℚ) :
    ∀ (l : List α) (a b : ℚ),
      l.foldl (fun acc x => if P x then (acc.1 + f x, acc.2 + g x) else acc) (a, b)
        = (a + (l.map fun x => if P x then f x else 0).sum,
           b + (l.map fun x => if P x then g x else 0).sum)
  | [], a, b => by simp
  | x :: t, a, b => by
      by_cases h : P x
      · simp only [List.foldl_cons, h, if_true, List.map_cons, List.sum_cons]
        rw [foldl_if_pair_sum P f g t]
        rw [Prod.mk.injEq]
        constructor <;> ring
      · simp only [List.foldl_cons, h, if_false, List.map_cons, List.sum_cons]
        rw [foldl_if_pair_sum P f g t]
        simp

theorem map_range_sum (f : ℕ → ℚ) : ∀ n : ℕ,
    ((List.range n).map f).sum = ∑ t ∈ Finset.range n, f t
  | 0 => by simp
  | n + 1 => by
      rw [List.range_succ, Finset.sum_range_succ, List.map_append, List.sum_append,
        map_range_sum f n]
      simp

theorem sum_range_mul_eq_prod (cw ch : ℕ) (F : ℕ × ℕ → ℚ) :
    ∑ t ∈ Finset.range (cw * ch), F (t % cw, t / cw)
      = ∑ q ∈ Finset.range cw ×ˢ Finset.range ch, F q := by
  rcases Nat.eq_zero_or_pos cw with hcw | hcw
  · subst hcw; simp
  refine Finset.sum_nbij' (fun t => (t % cw, t / cw)) (fun q => q.2 * cw + q.1) ?_ ?_ ?_ ?_ ?_
  · intro t ht
    rw [Finset.mem_range] at ht
    rw [Finset.mem_product, Finset.mem_range, Finset.mem_range]
    exact ⟨Nat.mod_lt _ hcw, Nat.div_lt_of_lt_mul (by omega)⟩
  · intro q hq
    rw [Finset.mem_product, Finset.mem_range, Finset.mem_range] at hq
    rw [Finset.mem_range]
    calc q.2 * cw + q.1 < q.2 * cw + cw := by omega
    _ = (q.2 + 1) * cw := by ring
    _ ≤ ch * cw := Nat.mul_le_mul_right cw hq.2
    _ = cw * ch := Nat.mul_comm _ _
  · intro t ht
    show (t / cw) * cw + t % cw = t
    rw [Nat.mul_comm]; exact Nat.div_add_mod t cw
  · intro q hq
    rw [Finset.mem_product, Finset.mem_range, Finset.mem_range] at hq
    have h1 : (q.2 * cw + q.1) % cw = q.1 := by
      rw [Nat.mul_comm q.2 cw, Nat.mul_add_mod, Nat.mod_eq_of_lt hq.1]
    have h2 : (q.2 * cw + q.1) / cw = q.2 := by
      rw [Nat.mul_comm q.2 cw, Nat.mul_add_div hcw, Nat.div_eq_of_lt hq.1, Nat.add_zero]
    show ((q.2 * cw + q.1) % cw, (q.2 * cw + q.1) / cw) = q
    rw [h1, h2]
  · intro t _; rfl

theorem matched_tn_eq_sum (img : sep_image) (K : List ℚ) (cw ch i j : ℕ) :
    matched_tn img K cw ch i j
      = (∑ q ∈ kincl img cw ch i j,
            kval K cw q * pix img (ktgt img cw ch i j q) / sigma2 img (ktgt img cw ch i j q),
         ∑ q ∈ kincl img cw ch i j,
            (kval K cw q) ^ 2 / sigma2 img (ktgt img cw ch i j q)) := by
  have hstep : mstep img K cw ch i j = fun (acc : ℚ × ℚ) q =>
      if kok img cw ch i j q then
        (acc.1 + kval K cw q * pix img (ktgt img cw ch i j q) / sigma2 img (ktgt img cw ch i j q),
         acc.2 + (kval K cw q) ^ 2 / sigma2 img (ktgt img cw ch i j q))
      else acc := rfl
  rw [matched_tn, hstep, foldl_if_pair_sum, kpos, List.map_map, List.map_map,
    map_range_sum, map_range_sum]
  have h1 : ∀ (F : ℕ × ℕ → ℚ),
      (∑ t ∈ Finset.range (cw * ch),
          (fun q => if kok img cw ch i j q then F q else 0) ((fun t => (t % cw, t / cw)) t))
        = ∑ q ∈ kincl img cw ch i j, F q := by
    intro F
    rw [kincl, Finset.sum_filter]
    exact sum_range_mul_eq_prod cw ch (fun q => if kok img cw ch i j q then F q else 0)
  rw [Prod.mk.injEq]
  constructor
  · rw [zero_add]
    exact h1 (fun q => kval K cw q * pix img (ktgt img cw ch i j q) / sigma2 img (ktgt img cw ch i j q))
  · rw [zero_add]
    exact h1 (fun q => (kval K cw q) ^ 2 / sigma2 img (ktgt img cw ch i j q))

/-- C1: in matched filter mode with a per-pixel noise array, the detection image
value at every pixel (i,j) equals t/n where t sums K·D/σ² and n is the square
root of the sum of K²/σ² over kernel positions, and kernel positions falling off
the image or landing on masked or sentinel pixels are excluded from both sums. -/
theorem matched_filter_detection_value (img : sep_image) (K : List ℚ) (cw ch i j : ℕ) :
    (matched_tn img K cw ch i j).1
      = (∑ q ∈ kincl img cw ch i j,
          kval K cw q * pix img (ktgt img cw ch i j q) / sigma2 img (ktgt img cw ch i j q))
  ∧ (matched_tn img K cw ch i j).2
      = (∑ q ∈ kincl img cw ch i j,
          (kval K cw q) ^ 2 / sigma2 img (ktgt img cw ch i j q))
  ∧ matchedD img K cw ch i j
      = ((matched_tn img K cw ch i j).1 : ℝ)
          / Real.sqrt ((matched_tn img K cw ch i j).2 : ℝ)
  ∧ (∀ q : ℕ × ℕ, (kok img cw ch i j q = true
       ↔ (kin img cw ch i j q = true
          ∧ masked img (ktgt img cw ch i j q) = false
          ∧ sentinel img (ktgt img cw ch i j q) = false))) := by
  refine ⟨?_, ?_, rfl, ?_⟩
  · rw [matched_tn_eq_sum]
  · rw [matched_tn_eq_sum]
  · intro q
    rw [kok, validPix]
    simp only [Bool.and_eq_true, Bool.not_eq_true']

theorem filter_key_cons_ne {α β : Type} [DecidableEq β] (f : α → β) (x : α)
    (xs : List α) (k : β) (h : f x ≠ k) :
    (x :: xs).filter (fun y => decide (f y = k)) = xs.filter (fun y => decide (f y = k)) := by
  rw [List.filter_cons]
  simp [h]

theorem flatten_map_filter_cons_perm {α β : Type} [DecidableEq β] (f : α → β)
    (x : α) (xs : List α) :
    ∀ ks : List β, ks.Nodup → f x ∈ ks →
      ((ks.map (fun k => (x :: xs).filter (fun y => decide (f y = k)))).flatten).Perm
        (x :: (ks.map (fun k => xs.filter (fun y => decide (f y = k)))).flatten)
  | [], _, hmem => by cases hmem
  | k :: kt, hnd, hmem => by
      rw [List.nodup_cons] at hnd
      rcases List.mem_cons.mp hmem with hk | hk
      · subst hk
        have htail : kt.map (fun k => (x :: xs).filter (fun y => decide (f y = k)))
            = kt.map (fun k => xs.filter (fun y => decide (f y = k))) := by
          refine List.map_congr_left ?_
          intro k' hk'
          exact filter_key_cons_ne f x xs k' (fun hEq => hnd.1 (hEq ▸ hk'))
        rw [List.map_cons, List.map_cons, List.flatten_cons, List.flatten_cons, htail,
          List.filter_cons]
        simp only [decide_eq_true_eq, if_pos rfl]
        exact List.Perm.refl _
      · have hne : f x ≠ k := by
          intro hEq; subst hEq; exact hnd.1 hk
        have hrec := flatten_map_filter_cons_perm f x xs kt hnd.2 hk
        rw [List.map_cons, List.map_cons, List.flatten_cons, List.flatten_cons,
          filter_key_cons_ne f x xs k hne]
        refine List.Perm.trans (List.Perm.append_left _ hrec) ?_
        exact List.perm_middle
  termination_by ks => ks.length

/-- Concatenating the classes of `partitionByKey` recovers the original list up
to permutation: every element lands in exactly one class. -/
theorem partitionByKey_flatten_perm {α β : Type} [DecidableEq α] [DecidableEq β]
    (f : α → β) : ∀ l : List α, ((partitionByKey f l).flatten).Perm l
  | [] => by simp [partitionByKey]
  | x :: xs => by
      by_cases hmem : f x ∈ xs.map f
      · have hkeys : ((x :: xs).map f).dedup = (xs.map f).dedup := by
          rw [List.map_cons, List.dedup_cons_of_mem hmem]
        rw [partitionByKey, hkeys]
        refine List.Perm.trans
          (flatten_map_filter_cons_perm f x xs _ (List.nodup_dedup _)
            (List.mem_dedup.mpr hmem)) ?_
        exact List.Perm.cons x (partitionByKey_flatten_perm f xs)
      · have hkeys : ((x :: xs).map f).dedup = f x :: (xs.map f).dedup := by
          rw [List.map_cons, List.dedup_cons_of_not_mem hmem]
        rw [partitionByKey, hkeys, List.map_cons, List.flatten_cons]
        have hnil : xs.filter (fun y => decide (f y = f x)) = [] := by
          rw [List.filter_eq_nil_iff]
          intro a ha
          simp only [decide_eq_true_eq]
          intro hEq
          exact hmem (List.mem_map.mpr ⟨a, ha, hEq⟩)
        have hhead : (x :: xs).filter (fun y => decide (f y = f x)) = [x] := by
          rw [List.filter_cons, hnil]
          simp
        have htail : ((xs.map f).dedup).map (fun k => (x :: xs).filter (fun y => decide (f y = k)))
            = ((xs.map f).dedup).map (fun k => xs.filter (fun y => decide (f y = k))) := by
          refine List.map_congr_left ?_
          intro k hk
          refine filter_key_cons_ne f x xs k ?_
          intro hEq
          exact hmem (hEq ▸ List.mem_dedup.mp hk)
        rw [hhead, htail]
        exact List.Perm.cons x (partitionByKey_flatten_perm f xs)

/-- Every class produced by `partitionByKey` is a filter (hence sublist) of the
input list. -/
theorem partitionByKey_mem_sublist {α β : Type} [DecidableEq α] [DecidableEq β]
    (f : α → β) (l : List α) (g : List α) (hg : g ∈ partitionByKey f l) :
    g.Sublist l := by
  rw [partitionByKey] at hg
  rcases List.mem_map.mp hg with ⟨k, _, hEq⟩
  exact hEq ▸ List.filter_sublist l

/-- C2: for every image and every fixed parameter set (including the
process-wide tuning knobs read at entry), two calls to sep_extract with
identical inputs produce identical catalogs — the same nobj and the same
contents of every per-object array, including the pixel-index buffer.  The
model is a pure function of its inputs, so extraction is deterministic by
construction. -/
theorem sep_extract_deterministic (img img' : sep_image) (par par' : ExtractParams)
    (kn kn' : Knobs) (h1 : img = img') (h2 : par = par') (h3 : kn = kn') :
    sep_extract img par kn = sep_extract img' par' kn' := by
  subst h1; subst h2; subst h3; rfl

/-- Inversion of a successful extraction: the catalog is the finished catalog
of the deblender's output on the surviving groups. -/
theorem sep_extract_ok_inv (img : sep_image) (par : ExtractParams) (kn : Knobs)
    (cat : sep_catalog) (h : sep_extract img par kn = .ok cat) :
    ∃ objs : List PObj, deblendAll img par kn (keptGroups img par) = .ok objs
      ∧ cat = finishCatalog img par objs := by
  rw [sep_extract] at h
  split at h
  · cases h
  · split at h
    · cases h
    · split at h
      · cases h
      · cases hdeb : deblendAll img par kn (keptGroups img par) with
        | error e => rw [hdeb] at h; cases h
        | ok objs =>
            rw [hdeb] at h
            injection h with h'
            exact ⟨objs, rfl, h'.symm⟩

/-- C4: when the pixel stack or the provisional-object table capacity is
exhausted, sep_extract fails with PIXSTACK_FULL or OBJECTS_LIMIT respectively,
and no partial catalog is returned (the result is an error, never ok).  The
model is pure, so its inputs (image, parameters, knobs) are untouched by the
failed call. -/
theorem sep_extract_resource_limits (img : sep_image) (par : ExtractParams) (kn : Knobs)
    (hpre : ¬(img.noise = none ∧ par.thresh_type = SEP_THRESH_REL
        ∧ img.noise_type = SEP_NOISE_NONE)) :
    (kn.pixstack < (abovePixList img par).length →
        sep_extract img par kn = .error PIXSTACK_FULL
          ∧ (sep_extract img par kn).isOk = false)
  ∧ ((abovePixList img par).length ≤ kn.pixstack →
      kn.object_limit < (segGroups img par).length →
        sep_extract img par kn = .error OBJECTS_LIMIT
          ∧ (sep_extract img par kn).isOk = false) := by
  constructor
  · intro hpix
    have he : sep_extract img par kn = .error PIXSTACK_FULL := by
      rw [sep_extract, if_neg hpre, if_pos hpix]
    exact ⟨he, by rw [he]; rfl⟩
  · intro hle hobj
    have he : sep_extract img par kn = .error OBJECTS_LIMIT := by
      rw [sep_extract, if_neg hpre,
        if_neg (by omega : ¬ kn.pixstack < (abovePixList img par).length), if_pos hobj]
    exact ⟨he, by rw [he]; rfl⟩

/-- The flag computed by measurement, written as the explicit three-bit or. -/
theorem measure_flag_eq (img : sep_image) (par : ExtractParams) (o : PObj) :
    (measureObj img par o).flag
      = (if o.merged then SEP_OBJ_MERGED else 0)
        ||| (if touchesBorder img o.pix then SEP_OBJ_TRUNC else 0)
        ||| (if (measureObj img par o).x2 * (measureObj img par o).y2
                - (measureObj img par o).xy ^ 2 ≤ 0 then SEP_OBJ_SINGU else 0) := rfl

theorem flag_or3_and4 (P Q R : Prop) [Decidable P] [Decidable Q] [Decidable R] :
    ((if P then SEP_OBJ_MERGED else 0)
        ||| (if Q then SEP_OBJ_TRUNC else 0)
        ||| (if R then SEP_OBJ_SINGU else 0)) &&& SEP_OBJ_DOVERFLOW = 0 := by
  rcases Classical.em P with hp | hp <;> rcases Classical.em Q with hq | hq <;>
    rcases Classical.em R with hr | hr <;>
      simp only [if_pos, if_neg, hp, hq, hr, if_true, if_false] <;> decide

/-- C10: the flag bit SEP_OBJ_DOVERFLOW (0x0004) is never set in the flag field
of any object of a catalog produced by sep_extract: measurement only ever sets
MERGED, TRUNC and SINGU (sep.h line 41 records the bit as not currently used). -/
theorem catalog_flag_doverflow_clear (img : sep_image) (par : ExtractParams)
    (kn : Knobs) (cat : sep_catalog) (h : sep_extract img par kn = .ok cat)
    (o : SepObj) (ho : o ∈ cat.objects) :
    o.flag &&& SEP_OBJ_DOVERFLOW = 0 := by
  rcases sep_extract_ok_inv img par kn cat h with ⟨objs, _, hcat⟩
  subst hcat
  have ho' : o ∈ (cleanedObjs img par objs).map (measureObj img par) := ho
  rcases List.mem_map.mp ho' with ⟨po, _, hpo⟩
  rw [← hpo, measure_flag_eq]
  exact flag_or3_and4 _ _ _

/-!  ### Pixel bookkeeping through the pipeline (towards C3)  -/

theorem flatten_sublist {α : Type} {L1 L2 : List (List α)} (h : L1.Sublist L2) :
    L1.flatten.Sublist L2.flatten := by
  induction h with
  | slnil => exact List.Sublist.refl _
  | cons a _ ih =>
      rw [List.flatten_cons]
      exact ih.trans (List.sublist_append_right a _)
  | cons₂ a _ ih =>
      rw [List.flatten_cons, List.flatten_cons]
      exact ih.append_left a

/-- Splitting off a duplicate-free sub-multiset s of a duplicate-free list l
and appending the remaining elements recovers l up to permutation. -/
theorem subperm_filter_split (l s : List ℕ) (hnd : l.Nodup) (hs : s.Subperm l) :
    (s ++ l.filter (fun p => decide (p ∉ s))).Perm l := by
  rcases hs with ⟨t, htp, hts⟩
  have hsnd : s.Nodup := htp.nodup (hts.nodup hnd)
  have hsub : s ⊆ l := fun a ha => hts.subset (htp.mem_iff.mpr ha)
  have hfil : (l.filter (fun p => decide (p ∈ s))).Perm s := by
    rw [List.perm_ext_iff_of_nodup (hnd.filter _) hsnd]
    intro a
    rw [List.mem_filter]
    simp only [decide_eq_true_eq]
    exact ⟨fun hx => hx.2, fun hx => ⟨hsub hx, hx⟩⟩
  refine List.Perm.trans (List.Perm.append hfil.symm (List.Perm.refl _)) ?_
  have hneg : (fun p => decide (p ∉ s)) = (fun p => !(decide (p ∈ s))) := by
    funext p
    simp only [decide_not]
  rw [hneg]
  exact List.filter_append_perm _ l

theorem map_pix_mark (l : List (List ℕ)) (b : Bool) :
    (l.map (PObj.pix ∘ fun g => (⟨g, b⟩ : PObj))) = l := by
  induction l with
  | nil => rfl
  | cons a t ih =>
      rw [List.map_cons, ih]
      exact rfl

theorem deblendPromoted_flatten_subperm (img : sep_image) (par : ExtractParams)
    (o : PObj) : ((deblendPromoted img par o).flatten).Subperm o.pix := by
  have h1 : (deblendPromoted img par o).flatten.Sublist (deblendSubs img par o).flatten :=
    flatten_sublist (List.filter_sublist _)
  have h2 : ((deblendSubs img par o).flatten).Perm (deblendHip img par o) :=
    partitionByKey_flatten_perm _ _
  have h3 : (deblendHip img par o).Sublist o.pix := List.filter_sublist _
  exact (h1.subperm.trans h2.subperm).trans h3.subperm

/-- Deblending one object redistributes exactly the parent's pixels over the
resulting objects (spec §4.4 steps 3-4). -/
theorem deblendOne_pix_perm (img : sep_image) (par : ExtractParams) (kn : Knobs)
    (o : PObj) (hnd : o.pix.Nodup) (cs : List PObj)
    (h : deblendOne img par kn o = .ok cs) :
    ((cs.map PObj.pix).flatten).Perm o.pix := by
  rw [deblendOne] at h
  split at h
  · injection h with h'
    subst h'
    simp
  · split at h
    · cases h
    · split at h
      · injection h with h'
        subst h'
        simp
      · injection h with h'
        subst h'
        simp
      · rename_i x g0 gtail hne hpr
        injection h with h'
        subst h'
        have hsp : ((g0 :: gtail).flatten).Subperm o.pix := by
          rw [← hpr]
          exact deblendPromoted_flatten_subperm img par o
        have hperm := subperm_filter_split o.pix ((g0 :: gtail).flatten) hnd hsp
        refine List.Perm.trans ?_ hperm
        simp only [List.map_cons, List.map_map, List.flatten_cons]
        rw [map_pix_mark]
        rw [List.append_assoc, List.append_assoc]
        exact List.Perm.append_left g0 List.perm_append_comm

/-- Deblending a list of objects redistributes exactly their pixels. -/
theorem deblendAll_pix_perm (img : sep_image) (par : ExtractParams) (kn : Knobs) :
    ∀ (l : List PObj), (∀ o ∈ l, o.pix.Nodup) →
    ∀ objs : List PObj, deblendAll img par kn l = .ok objs →
    ((objs.map PObj.pix).flatten).Perm ((l.map PObj.pix).flatten)
  | [], _, objs, h => by
      injection h with h'
      subst h'
      exact List.Perm.refl _
  | o :: t, hnd, objs, h => by
      rw [deblendAll] at h
      cases hone : deblendOne img par kn o with
      | error e => rw [hone] at h; cases h
      | ok cs =>
          rw [hone] at h
          cases hall : deblendAll img par kn t with
          | error e => rw [hall] at h; cases h
          | ok rest =>
              rw [hall] at h
              injection h with h'
              subst h'
              have h1 := deblendOne_pix_perm img par kn o (hnd o (List.mem_cons_self o t)) cs hone
              have h2 := deblendAll_pix_perm img par kn t
                (fun x hx => hnd x (List.mem_cons_of_mem o hx)) rest hall
              simp only [List.map_cons, List.map_append, List.flatten_cons,
                List.flatten_append]
              exact List.Perm.append h1 h2

/-- Absorption moves pixels between objects but neither loses nor duplicates
any (spec §4.4 Cleaning: B's pixels are appended to A). -/
theorem absorbInto_pix_perm (img : sep_image) (par : ExtractParams) :
    ∀ (l : List PObj) (A : PObj),
      ((absorbInto img par A l).1.pix
          ++ (((absorbInto img par A l).2).map PObj.pix).flatten).Perm
        (A.pix ++ (l.map PObj.pix).flatten)
  | [], A => by
      rw [absorbInto]
  | B :: t, A => by
      rw [absorbInto]
      split
      · have ih := absorbInto_pix_perm img par t (mergeObj A B)
        rw [List.map_cons, List.flatten_cons, ← List.append_assoc]
        exact ih
      · split
        · have ih := absorbInto_pix_perm img par t (mergeObj B A)
          rw [List.map_cons, List.flatten_cons]
          refine ih.trans ?_
          rw [show (mergeObj B A).pix = B.pix ++ A.pix from rfl, List.append_assoc]
          exact List.perm_append_comm_assoc _ _ _
        · rw [List.map_cons, List.flatten_cons, List.map_cons, List.flatten_cons]
          refine List.Perm.trans (List.perm_append_comm_assoc _ _ _) ?_
          refine List.Perm.trans
            (List.Perm.append_left B.pix (absorbInto_pix_perm img par t A)) ?_
          exact List.perm_append_comm_assoc _ _ _

theorem cleanPassF_pix_perm (img : sep_image) (par : ExtractParams) :
    ∀ (f : ℕ) (l : List PObj),
      (((cleanPassF img par f l).map PObj.pix).flatten).Perm ((l.map PObj.pix).flatten)
  | 0, _ => List.Perm.refl _
  | _ + 1, [] => List.Perm.refl _
  | f + 1, A :: rest => by
      rw [cleanPassF]
      simp only [List.map_cons, List.flatten_cons]
      refine List.Perm.trans
        (List.Perm.append_left _ (cleanPassF_pix_perm img par f _)) ?_
      exact absorbInto_pix_perm img par rest A

theorem cleanLoop_pix_perm (img : sep_image) (par : ExtractParams) :
    ∀ (f : ℕ) (l : List PObj),
      (((cleanLoop img par f l).map PObj.pix).flatten).Perm ((l.map PObj.pix).flatten)
  | 0, _ => List.Perm.refl _
  | f + 1, l => by
      rw [cleanLoop]
      split
      · exact List.Perm.refl _
      · exact (cleanLoop_pix_perm img par f _).trans
          (cleanPassF_pix_perm img par l.length l)

/-- Cleaning redistributes exactly the pixels of its input objects. -/
theorem cleanedObjs_pix_perm (img : sep_image) (par : ExtractParams) (objs : List PObj) :
    (((cleanedObjs img par objs).map PObj.pix).flatten).Perm
      ((objs.map PObj.pix).flatten) := by
  rw [cleanedObjs]
  split
  · exact cleanLoop_pix_perm img par (objs.length + 1) objs
  · exact List.Perm.refl _

theorem abovePixList_nodup (img : sep_image) (par : ExtractParams) :
    (abovePixList img par).Nodup :=
  (List.nodup_range _).filter _

theorem abovePixList_lt (img : sep_image) (par : ExtractParams) :
    ∀ p ∈ abovePixList img par, p < img.w * img.h := by
  intro p hp
  exact List.mem_range.mp (List.mem_filter.mp hp).1

theorem keptGroups_map_pix (img : sep_image) (par : ExtractParams) :
    (keptGroups img par).map PObj.pix
      = (segGroups img par).filter (fun g => decide (par.minarea ≤ g.length)) := by
  rw [keptGroups, List.map_map]
  exact map_pix_mark _ false

theorem keptGroups_pix_nodup (img : sep_image) (par : ExtractParams) :
    ∀ o ∈ keptGroups img par, o.pix.Nodup := by
  intro o ho
  rw [keptGroups] at ho
  rcases List.mem_map.mp ho with ⟨g, hg, hEq⟩
  have hg' : g ∈ segGroups img par := List.mem_of_mem_filter hg
  have hsub : g.Sublist (abovePixList img par) :=
    partitionByKey_mem_sublist _ _ g hg'
  rw [← hEq]
  exact hsub.nodup (abovePixList_nodup img par)

theorem keptGroups_flatten_subperm (img : sep_image) (par : ExtractParams) :
    (((keptGroups img par).map PObj.pix).flatten).Subperm (abovePixList img par) := by
  rw [keptGroups_map_pix]
  have h1 : ((segGroups img par).filter
        (fun g => decide (par.minarea ≤ g.length))).flatten.Sublist
      (segGroups img par).flatten :=
    flatten_sublist (List.filter_sublist _)
  have h2 : ((segGroups img par).flatten).Perm (abovePixList img par) :=
    partitionByKey_flatten_perm _ _
  exact h1.subperm.trans h2.subperm

/-- C3: in every catalog returned by sep_extract the per-object pixel lists are
pairwise disjoint and duplicate-free, every pixel index lies in [0, W·H), and
the npix totals equal the length of the concatenated objectspix buffer (which,
being duplicate-free, is exactly the number of distinct pixels assigned to any
object). -/
theorem catalog_pixels_partition (img : sep_image) (par : ExtractParams) (kn : Knobs)
    (cat : sep_catalog) (h : sep_extract img par kn = .ok cat) :
    cat.objectspix.Nodup
  ∧ (∀ p ∈ cat.objectspix, p < img.w * img.h)
  ∧ ((cat.objects.map SepObj.npix).sum = cat.objectspix.length)
  ∧ cat.objects.Pairwise (fun o1 o2 => ∀ p ∈ o1.pix, p ∉ o2.pix)
  ∧ cat.objectspix = (cat.objects.map SepObj.pix).flatten := by
  rcases sep_extract_ok_inv img par kn cat h with ⟨objs, hdeb, hcat⟩
  subst hcat
  have hobjs : (finishCatalog img par objs).objects
      = (cleanedObjs img par objs).map (measureObj img par) := rfl
  have hopix : (finishCatalog img par objs).objectspix
      = ((finishCatalog img par objs).objects.map SepObj.pix).flatten := rfl
  have hmp : ((cleanedObjs img par objs).map (measureObj img par)).map SepObj.pix
      = (cleanedObjs img par objs).map PObj.pix := by
    rw [List.map_map]
    exact List.map_congr_left (fun o _ => rfl)
  have hchain : ((finishCatalog img par objs).objectspix).Subperm
      (abovePixList img par) := by
    rw [hopix, hobjs, hmp]
    have h1 := cleanedObjs_pix_perm img par objs
    have h2 := deblendAll_pix_perm img par kn (keptGroups img par)
      (keptGroups_pix_nodup img par) objs hdeb
    exact (h1.subperm.trans h2.subperm).trans (keptGroups_flatten_subperm img par)
  have hnodup : ((finishCatalog img par objs).objectspix).Nodup := by
    rcases hchain with ⟨t, htp, hts⟩
    exact htp.nodup (hts.nodup (abovePixList_nodup img par))
  refine ⟨hnodup, ?_, ?_, ?_, hopix⟩
  · intro p hp
    exact abovePixList_lt img par p (hchain.subset hp)
  · rw [hopix, List.length_flatten, hobjs, List.map_map, List.map_map, List.map_map]
    exact congrArg List.sum (List.map_congr_left (fun po _ => rfl))
  · have hfn := hnodup
    rw [hopix] at hfn
    have hpw := (List.nodup_flatten.mp hfn).2
    rw [List.pairwise_map] at hpw
    exact hpw.imp (fun hd p hp1 hp2 => hd hp1 hp2)

/-!  ### Parameter congruence: extraction only reads the threshold fields
through the detection predicate, the working image and the ladder base  -/

section ParamCongr

variable (img : sep_image) (p1 p2 : ExtractParams) (kn : Knobs)

theorem measureObj_congr (hdet : detValue img p1 = detValue img p2)
    (hbase : ladderBase img p1 = ladderBase img p2) :
    measureObj img p1 = measureObj img p2 := by
  funext o
  unfold measureObj
  rw [hdet, hbase]

theorem shouldAbsorb_congr (hdet : detValue img p1 = detValue img p2)
    (hbase : ladderBase img p1 = ladderBase img p2)
    (hcp : p1.clean_param = p2.clean_param) :
    shouldAbsorb img p1 = shouldAbsorb img p2 := by
  funext A B
  unfold shouldAbsorb mahalInside
  rw [measureObj_congr img p1 p2 hdet hbase, hcp]

theorem absorbInto_congr (hsa : shouldAbsorb img p1 = shouldAbsorb img p2) :
    ∀ (l : List PObj) (A : PObj), absorbInto img p1 A l = absorbInto img p2 A l
  | [], A => by rw [absorbInto, absorbInto]
  | B :: t, A => by
      rw [absorbInto, absorbInto, hsa]
      by_cases h1 : shouldAbsorb img p2 A B = true
      · rw [if_pos h1, if_pos h1, absorbInto_congr hsa t (mergeObj A B)]
      · rw [if_neg h1, if_neg h1]
        by_cases h2 : shouldAbsorb img p2 B A = true
        · rw [if_pos h2, if_pos h2, absorbInto_congr hsa t (mergeObj B A)]
        · rw [if_neg h2, if_neg h2, absorbInto_congr hsa t A]

theorem cleanPassF_congr (hsa : shouldAbsorb img p1 = shouldAbsorb img p2) :
    ∀ (f : ℕ) (l : List PObj), cleanPassF img p1 f l = cleanPassF img p2 f l
  | 0, l => by rw [cleanPassF, cleanPassF]
  | f + 1, [] => by rw [cleanPassF, cleanPassF]
  | f + 1, A :: rest => by
      rw [cleanPassF, cleanPassF, absorbInto_congr img p1 p2 hsa rest A,
        cleanPassF_congr hsa f ((absorbInto img p2 A rest).2)]

theorem cleanLoop_congr (hsa : shouldAbsorb img p1 = shouldAbsorb img p2) :
    ∀ (f : ℕ) (l : List PObj), cleanLoop img p1 f l = cleanLoop img p2 f l
  | 0, l => by rw [cleanLoop, cleanLoop]
  | f + 1, l => by
      rw [cleanLoop, cleanLoop, cleanPassF_congr img p1 p2 hsa l.length l]
      by_cases h : cleanPassF img p2 l.length l = l
      · rw [if_pos h, if_pos h]
      · rw [if_neg h, if_neg h,
          cleanLoop_congr hsa f (cleanPassF img p2 l.length l)]

theorem cleanedObjs_congr (hsa : shouldAbsorb img p1 = shouldAbsorb img p2)
    (hcf : p1.clean_flag = p2.clean_flag) (objs : List PObj) :
    cleanedObjs img p1 objs = cleanedObjs img p2 objs := by
  rw [cleanedObjs, cleanedObjs, hcf,
    cleanLoop_congr img p1 p2 hsa (objs.length + 1) objs]

theorem deblendHip_congr (hdet : detValue img p1 = detValue img p2)
    (hbase : ladderBase img p1 = ladderBase img p2) :
    deblendHip img p1 = deblendHip img p2 := by
  funext o
  unfold deblendHip
  rw [hdet, hbase]

theorem deblendSubs_congr (hdet : detValue img p1 = detValue img p2)
    (hbase : ladderBase img p1 = ladderBase img p2) :
    deblendSubs img p1 = deblendSubs img p2 := by
  funext o
  unfold deblendSubs
  rw [deblendHip_congr img p1 p2 hdet hbase]

theorem deblendPromoted_congr (hdet : detValue img p1 = detValue img p2)
    (hbase : ladderBase img p1 = ladderBase img p2)
    (hdc : p1.deblend_cont = p2.deblend_cont) :
    deblendPromoted img p1 = deblendPromoted img p2 := by
  funext o
  unfold deblendPromoted
  rw [deblendSubs_congr img p1 p2 hdet hbase, hdet, hdc]

theorem deblendOne_congr (hdet : detValue img p1 = detValue img p2)
    (hbase : ladderBase img p1 = ladderBase img p2)
    (hdc : p1.deblend_cont = p2.deblend_cont)
    (hdn : p1.deblend_nthresh = p2.deblend_nthresh) (o : PObj) :
    deblendOne img p1 kn o = deblendOne img p2 kn o := by
  unfold deblendOne
  rw [deblendSubs_congr img p1 p2 hdet hbase,
    deblendPromoted_congr img p1 p2 hdet hbase hdc, hdn]

theorem deblendAll_congr (hdet : detValue img p1 = detValue img p2)
    (hbase : ladderBase img p1 = ladderBase img p2)
    (hdc : p1.deblend_cont = p2.deblend_cont)
    (hdn : p1.deblend_nthresh = p2.deblend_nthresh) :
    ∀ l : List PObj, deblendAll img p1 kn l = deblendAll img p2 kn l
  | [] => by rw [deblendAll, deblendAll]
  | o :: t => by
      rw [deblendAll, deblendAll,
        deblendOne_congr img p1 p2 kn hdet hbase hdc hdn o,
        deblendAll_congr hdet hbase hdc hdn t]

theorem segGroups_congr (hab : aboveAt img p1 = aboveAt img p2) :
    segGroups img p1 = segGroups img p2 := by
  unfold segGroups abovePixList
  rw [hab]

theorem keptGroups_congr (hab : aboveAt img p1 = aboveAt img p2)
    (hma : p1.minarea = p2.minarea) :
    keptGroups img p1 = keptGroups img p2 := by
  unfold keptGroups
  rw [segGroups_congr img p1 p2 hab, hma]

/-- sep_extract reads the threshold-related parameters only through the
detection predicate, the working (convolved) image, the ladder base and the
relative-threshold validity check; two parameter records agreeing on those and
on the remaining scalar fields produce the same result. -/
theorem sep_extract_congr (hab : aboveAt img p1 = aboveAt img p2)
    (hdet : detValue img p1 = detValue img p2)
    (hbase : ladderBase img p1 = ladderBase img p2)
    (hpre : (img.noise = none ∧ p1.thresh_type = SEP_THRESH_REL
        ∧ img.noise_type = SEP_NOISE_NONE)
      ↔ (img.noise = none ∧ p2.thresh_type = SEP_THRESH_REL
        ∧ img.noise_type = SEP_NOISE_NONE))
    (hma : p1.minarea = p2.minarea)
    (hdn : p1.deblend_nthresh = p2.deblend_nthresh)
    (hdc : p1.deblend_cont = p2.deblend_cont)
    (hcf : p1.clean_flag = p2.clean_flag)
    (hcp : p1.clean_param = p2.clean_param) :
    sep_extract img p1 kn = sep_extract img p2 kn := by
  have hsa := shouldAbsorb_congr img p1 p2 hdet hbase hcp
  have hfin : finishCatalog img p1 = finishCatalog img p2 := by
    funext objs
    unfold finishCatalog
    rw [cleanedObjs_congr img p1 p2 hsa hcf objs,
      measureObj_congr img p1 p2 hdet hbase]
  unfold sep_extract
  rw [keptGroups_congr img p1 p2 hab hma, segGroups_congr img p1 p2 hab,
    deblendAll_congr img p1 p2 kn hdet hbase hdc hdn, hfin]
  unfold abovePixList
  rw [hab]
  by_cases hc : img.noise = none ∧ p2.thresh_type = SEP_THRESH_REL
      ∧ img.noise_type = SEP_NOISE_NONE
  · rw [if_pos (hpre.mpr hc), if_pos hc]
  · rw [if_neg (fun hx => hc (hpre.mp hx)), if_neg hc]

end ParamCongr

/-- The squared relative-threshold test against a scalar σ agrees with the
plain comparison against the absolute threshold thr·σ (for nonnegative
threshold and σ). -/
theorem relAbove_eq_abs (c thr nv : ℚ) (hth : 0 ≤ thr) (hnv : 0 ≤ nv) :
    relAbove c thr (nv ^ 2) = decide (thr * nv < c) := by
  rw [relAbove, decide_eq_decide]
  constructor
  · rintro ⟨h1, h2⟩
    nlinarith
  · intro h
    have h0 : 0 < c := lt_of_le_of_lt (mul_nonneg hth hnv) h
    refine ⟨h0, ?_⟩
    have h1 : 0 < c - thr * nv := by linarith
    have h2 : 0 < c + thr * nv := by nlinarith [mul_nonneg hth hnv]
    nlinarith [mul_pos h1 h2]

/-- With no noise array the matched branch of the detection test is never
taken: the test compares the working value against the threshold. -/
theorem aboveAt_noise_none (img : sep_image) (par : ExtractParams) (p : ℕ)
    (hn : img.noise = none) :
    aboveAt img par p = (validPix img p &&
      (if par.thresh_type = SEP_THRESH_ABS then decide (par.thresh < detValue img par p)
       else relAbove (detValue img par p) par.thresh (sigma2 img p))) := by
  unfold aboveAt
  rw [hn]
  cases hcv : par.conv with
  | none => rfl
  | some K => cases hb : decide (par.filter_type = SEP_FILTER_MATCHED) <;> rfl

/-- With no noise array and a stddev-interpreted scalar noise, the per-pixel
variance is the square of the scalar noise value. -/
theorem sigma2_noise_none_stddev (img : sep_image) (p : ℕ)
    (hn : img.noise = none) (hnt : img.noise_type = SEP_NOISE_STDDEV) :
    sigma2 img p = img.noiseval ^ 2 := by
  unfold sigma2
  rw [hn, hnt]
  rfl

/-- C9: when sep_extract is called with no per-pixel noise array and a relative
threshold, the effective absolute detection threshold is the supplied threshold
scaled by the scalar noise (sep.h lines 226-228), and matched filter mode
degrades to plain convolution against that absolute threshold: the whole
extraction agrees with a run in conv mode at the absolute threshold
thresh·noiseval. -/
theorem no_noise_matched_degrades (img : sep_image) (par : ExtractParams) (kn : Knobs)
    (hn : img.noise = none) (hnt : img.noise_type = SEP_NOISE_STDDEV)
    (hrel : par.thresh_type = SEP_THRESH_REL)
    (hth : 0 ≤ par.thresh) (hnv : 0 ≤ img.noiseval) :
    ladderBase img par = par.thresh * img.noiseval
  ∧ sep_extract img par kn
      = sep_extract img
          { par with filter_type := SEP_FILTER_CONV, thresh_type := SEP_THRESH_ABS,
                     thresh := par.thresh * img.noiseval } kn := by
  have hbase1 : ladderBase img par = par.thresh * img.noiseval := by
    unfold ladderBase
    rw [if_pos ⟨hn, hrel⟩]
  refine ⟨hbase1, ?_⟩
  have hfalse : ∀ tt : ℕ,
      ¬(img.noise = none ∧ tt = SEP_THRESH_REL ∧ img.noise_type = SEP_NOISE_NONE) := by
    rintro tt ⟨_, _, h3⟩
    rw [hnt] at h3
    exact absurd h3 (by decide)
  apply sep_extract_congr
  · funext p
    rw [aboveAt_noise_none img par p hn, aboveAt_noise_none img _ p hn]
    rw [hrel, if_neg (by decide : ¬ SEP_THRESH_REL = SEP_THRESH_ABS),
      if_pos (rfl : SEP_THRESH_ABS = SEP_THRESH_ABS)]
    rw [sigma2_noise_none_stddev img p hn hnt]
    rw [relAbove_eq_abs (detValue img par p) par.thresh img.noiseval hth hnv]
    rfl
  · rfl
  · rw [hbase1]
    unfold ladderBase
    rw [if_neg (fun hx => absurd hx.2
      (show ¬ SEP_THRESH_ABS = SEP_THRESH_REL by decide))]
  · exact iff_of_false (hfalse par.thresh_type) (hfalse SEP_THRESH_ABS)
  · rfl
  · rfl
  · rfl
  · rfl
  · rfl

/-!  ### Ellipse-from-moments theorems (towards C5)  -/

theorem objA_sq (o : SepObj) (hx2 : 0 ≤ o.x2) (hy2 : 0 ≤ o.y2)
    (hns : ¬ singuTest o) :
    (objA o) ^ 2 = (((o.x2 + o.y2) / 2 : ℚ) : ℝ)
      + Real.sqrt (((((o.x2 - o.y2) / 2) ^ 2 + o.xy ^ 2 : ℚ) : ℝ)) := by
  rw [objA, if_neg hns]
  apply Real.sq_sqrt
  have h1 : (0 : ℝ) ≤ (((o.x2 + o.y2) / 2 : ℚ) : ℝ) := by
    have : (0 : ℚ) ≤ (o.x2 + o.y2) / 2 := by linarith
    exact_mod_cast this
  exact add_nonneg h1 (Real.sqrt_nonneg _)

theorem objB_sq (o : SepObj) (hx2 : 0 ≤ o.x2) (hy2 : 0 ≤ o.y2)
    (hns : ¬ singuTest o) :
    (objB o) ^ 2 = (((o.x2 + o.y2) / 2 : ℚ) : ℝ)
      - Real.sqrt (((((o.x2 - o.y2) / 2) ^ 2 + o.xy ^ 2 : ℚ) : ℝ)) := by
  have hs : 0 < o.x2 * o.y2 - o.xy ^ 2 := by
    unfold singuTest at hns
    exact not_le.mp hns
  have hhalf : (0 : ℚ) ≤ (o.x2 + o.y2) / 2 := by linarith
  rw [objB, if_neg hns]
  apply Real.sq_sqrt
  rw [sub_nonneg]
  have hq : ((o.x2 - o.y2) / 2) ^ 2 + o.xy ^ 2 ≤ ((o.x2 + o.y2) / 2) ^ 2 := by
    nlinarith
  calc Real.sqrt (((((o.x2 - o.y2) / 2) ^ 2 + o.xy ^ 2 : ℚ) : ℝ))
      ≤ Real.sqrt (((((o.x2 + o.y2) / 2) ^ 2 : ℚ) : ℝ)) :=
        Real.sqrt_le_sqrt (by exact_mod_cast hq)
  _ = (((o.x2 + o.y2) / 2 : ℚ) : ℝ) := by
        rw [show ((((o.x2 + o.y2) / 2) ^ 2 : ℚ) : ℝ)
            = (((o.x2 + o.y2) / 2 : ℚ) : ℝ) ^ 2 by push_cast; ring]
        exact Real.sqrt_sq (by exact_mod_cast hhalf)

theorem flag_or3_and8 (P Q R : Prop) [Decidable P] [Decidable Q] [Decidable R] :
    ((if P then SEP_OBJ_MERGED else 0) ||| (if Q then SEP_OBJ_TRUNC else 0)
        ||| (if R then SEP_OBJ_SINGU else 0)) &&& SEP_OBJ_SINGU
      = (if R then SEP_OBJ_SINGU else 0) := by
  rcases Classical.em P with hp | hp <;> rcases Classical.em Q with hq | hq <;>
    rcases Classical.em R with hr | hr <;>
      simp only [hp, hq, hr, if_true, if_false, if_pos, if_neg] <;> decide

/-- C5: for every surviving object the ellipse parameters satisfy
a² = (μ20+μ02)/2 + √(((μ20−μ02)/2)² + μ11²), b² the same with minus, and
θ = ½·atan2(2μ11, μ20−μ02), where (μ20, μ02, μ11) = (x2, y2, xy) are the
object's second central moments; when μ20·μ02 − μ11² ≤ 0 the object instead
carries SEP_OBJ_SINGU and falls back to the minimum-radius disk.  (The
nonnegativity hypotheses on the moments hold whenever the detection values are
nonnegative, e.g. for positive thresholds.) -/
theorem catalog_ellipse_from_moments (img : sep_image) (par : ExtractParams)
    (kn : Knobs) (cat : sep_catalog) (h : sep_extract img par kn = .ok cat)
    (o : SepObj) (ho : o ∈ cat.objects) (hx2 : 0 ≤ o.x2) (hy2 : 0 ≤ o.y2) :
    (¬ singuTest o →
        (objA o) ^ 2 = (((o.x2 + o.y2) / 2 : ℚ) : ℝ)
            + Real.sqrt (((((o.x2 - o.y2) / 2) ^ 2 + o.xy ^ 2 : ℚ) : ℝ))
      ∧ (objB o) ^ 2 = (((o.x2 + o.y2) / 2 : ℚ) : ℝ)
            - Real.sqrt (((((o.x2 - o.y2) / 2) ^ 2 + o.xy ^ 2 : ℚ) : ℝ))
      ∧ objTheta o = atan2 (((2 * o.xy : ℚ) : ℝ)) (((o.x2 - o.y2 : ℚ) : ℝ)) / 2
      ∧ o.flag &&& SEP_OBJ_SINGU = 0)
  ∧ (singuTest o →
        o.flag &&& SEP_OBJ_SINGU = SEP_OBJ_SINGU
      ∧ objA o = minRadius ∧ objB o = minRadius) := by
  rcases sep_extract_ok_inv img par kn cat h with ⟨objs, _, hcat⟩
  subst hcat
  have ho' : o ∈ (cleanedObjs img par objs).map (measureObj img par) := ho
  rcases List.mem_map.mp ho' with ⟨po, _, hpo⟩
  have hflag : o.flag &&& SEP_OBJ_SINGU = (if singuTest o then SEP_OBJ_SINGU else 0) := by
    rw [← hpo, measure_flag_eq]
    exact flag_or3_and8 _ _ _
  constructor
  · intro hns
    refine ⟨objA_sq o hx2 hy2 hns, objB_sq o hx2 hy2 hns, ?_, ?_⟩
    · rw [objTheta, if_neg hns]
    · rw [hflag, if_neg hns]
  · intro hs
    refine ⟨?_, ?_, ?_⟩
    · rw [hflag, if_pos hs]
    · rw [objA, if_pos hs]
    · rw [objB, if_pos hs]

/-!  ### Ellipse conversion round trip (towards C6)  -/

theorem atan2_scaled_cos_sin (k ang : ℝ) (hk : 0 < k)
    (hang : ang ∈ Set.Ioc (-Real.pi) Real.pi) :
    atan2 (k * Real.sin ang) (k * Real.cos ang) = ang := by
  unfold atan2
  have hz : (⟨k * Real.cos ang, k * Real.sin ang⟩ : ℂ)
      = (k : ℂ) * ((Real.cos ang : ℝ) + (Real.sin ang : ℝ) * Complex.I) := by
    rw [Complex.mk_eq_add_mul_I]
    push_cast
    ring
  rw [hz, Complex.arg_real_mul _ hk, Complex.ofReal_cos, Complex.ofReal_sin,
    Complex.arg_cos_add_sin_mul_I hang]

/-- C6 (amended): for b < a (both positive) and θ ∈ (−π/2, π/2], converting
the axis representation to coefficients with sep_ellipse_coeffs and back with
sep_ellipse_axes recovers exactly (a, b, θ). -/
theorem ellipse_coeffs_axes_round_trip (a b θ : ℝ) (hb : 0 < b) (hab : b < a)
    (hθ : θ ∈ Set.Ioc (-(Real.pi / 2)) (Real.pi / 2)) :
    sep_ellipse_axes (sep_ellipse_coeffs a b θ).1 (sep_ellipse_coeffs a b θ).2.1
      (sep_ellipse_coeffs a b θ).2.2 = (a, b, θ) := by
  obtain ⟨hθ1, hθ2⟩ := hθ
  have ha : 0 < a := lt_trans hb hab
  have ha2 : (0 : ℝ) < a ^ 2 := by positivity
  have hb2 : (0 : ℝ) < b ^ 2 := by positivity
  have hk : (0 : ℝ) < 1 / b ^ 2 - 1 / a ^ 2 := by
    have := one_div_lt_one_div_of_lt hb2 (by nlinarith : b ^ 2 < a ^ 2)
    linarith
  have hpyth := Real.sin_sq_add_cos_sq θ
  have hcos2 : Real.cos (2 * θ) = Real.cos θ ^ 2 - Real.sin θ ^ 2 := by
    rw [Real.cos_two_mul]
    linear_combination hpyth
  have hsin2 := Real.sin_two_mul θ
  have hcxx : (sep_ellipse_coeffs a b θ).1
      = Real.cos θ ^ 2 / a ^ 2 + Real.sin θ ^ 2 / b ^ 2 := rfl
  have hcyy : (sep_ellipse_coeffs a b θ).2.1
      = Real.sin θ ^ 2 / a ^ 2 + Real.cos θ ^ 2 / b ^ 2 := rfl
  have hcxy : (sep_ellipse_coeffs a b θ).2.2
      = 2 * Real.cos θ * Real.sin θ * (1 / a ^ 2 - 1 / b ^ 2) := rfl
  rw [hcxx, hcyy, hcxy, sep_ellipse_axes]
  have hq : ((Real.cos θ ^ 2 / a ^ 2 + Real.sin θ ^ 2 / b ^ 2
        - (Real.sin θ ^ 2 / a ^ 2 + Real.cos θ ^ 2 / b ^ 2)) / 2) ^ 2
      + (2 * Real.cos θ * Real.sin θ * (1 / a ^ 2 - 1 / b ^ 2) / 2) ^ 2
      = ((1 / b ^ 2 - 1 / a ^ 2) / 2) ^ 2 := by
    linear_combination ((1 / a ^ 2 - 1 / b ^ 2) ^ 2 / 4
      * (Real.cos θ ^ 2 + Real.sin θ ^ 2 + 1)) * hpyth
  rw [hq, Real.sqrt_sq (by linarith : (0:ℝ) ≤ (1 / b ^ 2 - 1 / a ^ 2) / 2)]
  have h1 : (Real.cos θ ^ 2 / a ^ 2 + Real.sin θ ^ 2 / b ^ 2
        + (Real.sin θ ^ 2 / a ^ 2 + Real.cos θ ^ 2 / b ^ 2)) / 2
      - (1 / b ^ 2 - 1 / a ^ 2) / 2 = 1 / a ^ 2 := by
    linear_combination ((1 / a ^ 2 + 1 / b ^ 2) / 2) * hpyth
  have h2 : (Real.cos θ ^ 2 / a ^ 2 + Real.sin θ ^ 2 / b ^ 2
        + (Real.sin θ ^ 2 / a ^ 2 + Real.cos θ ^ 2 / b ^ 2)) / 2
      + (1 / b ^ 2 - 1 / a ^ 2) / 2 = 1 / b ^ 2 := by
    linear_combination ((1 / a ^ 2 + 1 / b ^ 2) / 2) * hpyth
  rw [h1, h2]
  have hy : -(2 * Real.cos θ * Real.sin θ * (1 / a ^ 2 - 1 / b ^ 2))
      = (1 / b ^ 2 - 1 / a ^ 2) * Real.sin (2 * θ) := by
    rw [hsin2]
    ring
  have hx : Real.sin θ ^ 2 / a ^ 2 + Real.cos θ ^ 2 / b ^ 2
        - (Real.cos θ ^ 2 / a ^ 2 + Real.sin θ ^ 2 / b ^ 2)
      = (1 / b ^ 2 - 1 / a ^ 2) * Real.cos (2 * θ) := by
    rw [hcos2]
    ring
  rw [hy, hx, atan2_scaled_cos_sin (1 / b ^ 2 - 1 / a ^ 2) (2 * θ) hk
    ⟨by linarith, by linarith⟩]
  have hsa : Real.sqrt (1 / a ^ 2) = 1 / a := by
    rw [one_div, Real.sqrt_inv, Real.sqrt_sq ha.le, one_div]
  have hsb : Real.sqrt (1 / b ^ 2) = 1 / b := by
    rw [one_div, Real.sqrt_inv, Real.sqrt_sq hb.le, one_div]
  rw [hsa, hsb, one_div_one_div, one_div_one_div]
  have hth : 2 * θ / 2 = θ := by ring
  rw [hth]

theorem atan2_zero_zero : atan2 0 0 = 0 := by
  unfold atan2
  have hz : (⟨(0 : ℝ), (0 : ℝ)⟩ : ℂ) = 0 := by
    apply Complex.ext <;> simp
  rw [hz, Complex.arg_zero]

theorem atan2_zero_neg (x : ℝ) (hx : x < 0) : atan2 0 x = Real.pi := by
  unfold atan2
  have hz : (⟨x, (0 : ℝ)⟩ : ℂ) = (x : ℂ) := by
    rw [Complex.ofReal_def]
  rw [hz]
  exact Complex.arg_ofReal_of_neg hx

theorem axes_third (cxx cyy cxy : ℝ) :
    (sep_ellipse_axes cxx cyy cxy).2.2 = atan2 (-cxy) (cyy - cxx) / 2 := rfl

/-- C6 counterexample: the round trip fails for the claim's precondition
a ≥ b > 0 with θ in range: at the circle a = b = 1 with θ = π/4 the recovered
angle is 0, and at θ = −π/2 (a = 2 > b = 1) the recovered angle is π/2. -/
theorem ellipse_round_trip_counterexample :
    sep_ellipse_axes (sep_ellipse_coeffs 1 1 (Real.pi / 4)).1
        (sep_ellipse_coeffs 1 1 (Real.pi / 4)).2.1
        (sep_ellipse_coeffs 1 1 (Real.pi / 4)).2.2
      ≠ (1, 1, Real.pi / 4)
  ∧ sep_ellipse_axes (sep_ellipse_coeffs 2 1 (-(Real.pi / 2))).1
        (sep_ellipse_coeffs 2 1 (-(Real.pi / 2))).2.1
        (sep_ellipse_coeffs 2 1 (-(Real.pi / 2))).2.2
      ≠ (2, 1, -(Real.pi / 2)) := by
  have hpi := Real.pi_pos
  constructor
  · intro heq
    have h3 : (sep_ellipse_axes (sep_ellipse_coeffs 1 1 (Real.pi / 4)).1
        (sep_ellipse_coeffs 1 1 (Real.pi / 4)).2.1
        (sep_ellipse_coeffs 1 1 (Real.pi / 4)).2.2).2.2 = Real.pi / 4 := by
      rw [heq]
    rw [axes_third] at h3
    have hcxy : (sep_ellipse_coeffs 1 1 (Real.pi / 4)).2.2 = 0 := by
      show 2 * Real.cos (Real.pi / 4) * Real.sin (Real.pi / 4)
        * (1 / 1 ^ 2 - 1 / 1 ^ 2) = 0
      norm_num
    have hsub : (sep_ellipse_coeffs 1 1 (Real.pi / 4)).2.1
        - (sep_ellipse_coeffs 1 1 (Real.pi / 4)).1 = 0 := by
      show Real.sin (Real.pi / 4) ^ 2 / 1 ^ 2 + Real.cos (Real.pi / 4) ^ 2 / 1 ^ 2
        - (Real.cos (Real.pi / 4) ^ 2 / 1 ^ 2 + Real.sin (Real.pi / 4) ^ 2 / 1 ^ 2) = 0
      ring
    rw [hcxy, neg_zero, hsub, atan2_zero_zero] at h3
    norm_num at h3
    linarith
  · intro heq
    have h3 : (sep_ellipse_axes (sep_ellipse_coeffs 2 1 (-(Real.pi / 2))).1
        (sep_ellipse_coeffs 2 1 (-(Real.pi / 2))).2.1
        (sep_ellipse_coeffs 2 1 (-(Real.pi / 2))).2.2).2.2 = -(Real.pi / 2) := by
      rw [heq]
    rw [axes_third] at h3
    have hcxy : (sep_ellipse_coeffs 2 1 (-(Real.pi / 2))).2.2 = 0 := by
      show 2 * Real.cos (-(Real.pi / 2)) * Real.sin (-(Real.pi / 2))
        * (1 / 2 ^ 2 - 1 / 1 ^ 2) = 0
      rw [Real.cos_neg, Real.cos_pi_div_two]
      ring
    have hsub : (sep_ellipse_coeffs 2 1 (-(Real.pi / 2))).2.1
        - (sep_ellipse_coeffs 2 1 (-(Real.pi / 2))).1 = -(3 / 4) := by
      show Real.sin (-(Real.pi / 2)) ^ 2 / 2 ^ 2 + Real.cos (-(Real.pi / 2)) ^ 2 / 1 ^ 2
        - (Real.cos (-(Real.pi / 2)) ^ 2 / 2 ^ 2 + Real.sin (-(Real.pi / 2)) ^ 2 / 1 ^ 2)
        = -(3 / 4)
      rw [Real.cos_neg, Real.cos_pi_div_two, Real.sin_neg, Real.sin_pi_div_two]
      norm_num
    rw [hcxy, neg_zero, hsub,
      atan2_zero_neg (-(3 / 4)) (by norm_num)] at h3
    linarith

/-!  ### Background estimator on a constant image (towards C7)  -/

theorem getD_replicate {α : Type} (n i : ℕ) (a d : α) (h : i < n) :
    (List.replicate n a).getD i d = a := by
  rw [List.getD_eq_getElem _ _ (by simpa using h), List.getElem_replicate]

theorem getD_map_range {α : Type} (n i : ℕ) (f : ℕ → α) (d : α) (h : i < n) :
    (((List.range n).map f).getD i d) = f i := by
  rw [List.getD_eq_getElem _ _ (by simpa using h)]
  rw [List.getElem_map, List.getElem_range]

theorem meanQ_replicate (k : ℕ) (c : ℚ) (hk : 1 ≤ k) :
    meanQ (List.replicate k c) = c := by
  rw [meanQ, List.sum_replicate, List.length_replicate, nsmul_eq_mul]
  rw [mul_comm, mul_div_assoc,
    div_self (show ((k : ℕ) : ℚ) ≠ 0 by exact_mod_cast (by omega : k ≠ 0)), mul_one]

theorem varQ_replicate (k : ℕ) (c : ℚ) (hk : 1 ≤ k) :
    varQ (List.replicate k c) = 0 := by
  rw [varQ, meanQ_replicate k c hk, List.map_replicate]
  simp

theorem clipOnce_replicate (k : ℕ) (c : ℚ) (hk : 1 ≤ k) :
    clipOnce (List.replicate k c) = List.replicate k c := by
  rw [clipOnce, List.filter_eq_self]
  intro a ha
  rw [(List.mem_replicate.mp ha).2, meanQ_replicate k c hk, varQ_replicate k c hk]
  simp

theorem clipLoop_replicate (f k : ℕ) (c : ℚ) (hk : 1 ≤ k) :
    clipLoop f (List.replicate k c) = List.replicate k c := by
  cases f with
  | zero => rfl
  | succ f =>
      rw [clipLoop, clipOnce_replicate k c hk, if_pos rfl]

theorem medianQ_replicate (k : ℕ) (c : ℚ) (hk : 1 ≤ k) :
    medianQ (List.replicate k c) = c := by
  rw [medianQ]
  have hperm := List.perm_insertionSort (· ≤ ·) (List.replicate k c)
  have hall : ∀ b ∈ List.insertionSort (· ≤ ·) (List.replicate k c), b = c := by
    intro b hb
    exact (List.mem_replicate.mp (hperm.subset hb)).2
  rw [List.eq_replicate_of_mem hall, List.length_insertionSort, List.length_replicate]
  exact getD_replicate _ _ _ _ (by omega)

theorem tileBack_replicate (k : ℕ) (c : ℚ) (hk : 1 ≤ k) :
    tileBack (List.replicate k c) = c := by
  rw [tileBack, meanQ_replicate k c hk, medianQ_replicate k c hk,
    varQ_replicate k c hk]
  norm_num

theorem tileStats_replicate (k : ℕ) (c : ℚ) (hk : 1 ≤ k) :
    tileStats (List.replicate k c) = (c, 0) := by
  rw [tileStats, clipLoop_replicate _ k c hk, tileBack_replicate k c hk,
    varQ_replicate k c hk]

/-- A tile index below the tile count addresses a nonempty strip:
tx·bw < w when tx < ⌈w/bw⌉. -/
theorem tile_lt (w bw tx : ℕ) (hbw : 1 ≤ bw) (htx : tx < nTiles w bw) :
    tx * bw < w := by
  rw [nTiles] at htx
  have hd := Nat.div_mul_le_self (w + bw - 1) bw
  have h1 : tx + 1 ≤ (w + bw - 1) / bw := htx
  have h2 : (tx + 1) * bw ≤ (w + bw - 1) / bw * bw := Nat.mul_le_mul_right bw h1
  have h6 : tx * bw + bw ≤ w + bw - 1 := by
    calc tx * bw + bw = (tx + 1) * bw := by ring
    _ ≤ (w + bw - 1) / bw * bw := h2
    _ ≤ w + bw - 1 := hd
  generalize tx * bw = X at h6 ⊢
  omega

theorem tileIdx_mem_lt (img : sep_image) (bw bh tx ty : ℕ) (p : ℕ)
    (hp : p ∈ tileIdx img bw bh tx ty) : p < img.w * img.h := by
  rw [tileIdx] at hp
  rcases List.mem_flatten.mp hp with ⟨row, hrow, hpr⟩
  rcases List.mem_map.mp hrow with ⟨dy, hdy, hEq⟩
  rw [← hEq] at hpr
  rcases List.mem_map.mp hpr with ⟨dx, hdx, hEq2⟩
  rw [List.mem_range] at hdy hdx
  have hy : ty * bh + dy < img.h := by omega
  have hx : tx * bw + dx < img.w := by omega
  rw [← hEq2]
  calc (ty * bh + dy) * img.w + (tx * bw + dx)
      < (ty * bh + dy) * img.w + img.w := by omega
  _ = (ty * bh + dy + 1) * img.w := by ring
  _ ≤ img.h * img.w := Nat.mul_le_mul_right img.w (by omega)
  _ = img.w * img.h := Nat.mul_comm _ _

theorem tileIdx_nonempty (img : sep_image) (bw bh tx ty : ℕ)
    (hbw : 1 ≤ bw) (hbh : 1 ≤ bh)
    (htx : tx < nTiles img.w bw) (hty : ty < nTiles img.h bh) :
    (ty * bh) * img.w + tx * bw ∈ tileIdx img bw bh tx ty := by
  have hxw := tile_lt img.w bw tx hbw htx
  have hyh := tile_lt img.h bh ty hbh hty
  rw [tileIdx]
  rw [List.mem_flatten]
  refine ⟨(List.range (min bw (img.w - tx * bw))).map (fun dx =>
    (ty * bh + 0) * img.w + (tx * bw + dx)), ?_, ?_⟩
  · exact List.mem_map.mpr ⟨0, List.mem_range.mpr (by omega), rfl⟩
  · exact List.mem_map.mpr ⟨0, List.mem_range.mpr (by omega), by ring_nf⟩

theorem pix_const (img : sep_image) (c : ℚ)
    (hdata : img.data = List.replicate (img.w * img.h) c) (p : ℕ)
    (hp : p < img.w * img.h) : pix img p = c := by
  rw [pix, hdata]
  exact getD_replicate _ _ _ _ hp

theorem validPix_const (img : sep_image) (c : ℚ)
    (hdata : img.data = List.replicate (img.w * img.h) c)
    (hmask : img.mask = none) (hc : sentinelBound < c) (p : ℕ)
    (hp : p < img.w * img.h) : validPix img p = true := by
  rw [validPix, masked, hmask, sentinel, pix_const img c hdata p hp]
  have hns : ¬ (c ≤ sentinelBound) := not_le.mpr hc
  simp [hns]

theorem tileSamples_const (img : sep_image) (c : ℚ) (bw bh tx ty : ℕ)
    (hdata : img.data = List.replicate (img.w * img.h) c)
    (hmask : img.mask = none) (hc : sentinelBound < c)
    (hbw : 1 ≤ bw) (hbh : 1 ≤ bh)
    (htx : tx < nTiles img.w bw) (hty : ty < nTiles img.h bh) :
    tileSamples img bw bh tx ty
      = List.replicate (tileSamples img bw bh tx ty).length c
  ∧ 1 ≤ (tileSamples img bw bh tx ty).length := by
  have hfil : (tileIdx img bw bh tx ty).filter (validPix img)
      = tileIdx img bw bh tx ty := by
    rw [List.filter_eq_self]
    intro p hp
    exact validPix_const img c hdata hmask hc p (tileIdx_mem_lt img bw bh tx ty p hp)
  constructor
  · apply List.eq_replicate_of_mem
    intro v hv
    rw [tileSamples, hfil] at hv
    rcases List.mem_map.mp hv with ⟨p, hp, hEq⟩
    rw [← hEq]
    exact pix_const img c hdata p (tileIdx_mem_lt img bw bh tx ty p hp)
  · have hmem : pix img ((ty * bh) * img.w + tx * bw) ∈ tileSamples img bw bh tx ty := by
      rw [tileSamples, hfil]
      exact List.mem_map.mpr ⟨_, tileIdx_nonempty img bw bh tx ty hbw hbh htx hty, rfl⟩
    cases hts : tileSamples img bw bh tx ty with
    | nil => rw [hts] at hmem; cases hmem
    | cons a t => simp

theorem nTiles_pos (w bw : ℕ) (hw : 1 ≤ w) (hbw : 1 ≤ bw) : 1 ≤ nTiles w bw := by
  rw [nTiles]
  rw [Nat.one_le_div_iff (by omega)]
  omega

theorem rawTileStats_const (img : sep_image) (c : ℚ) (bw bh : ℕ)
    (hdata : img.data = List.replicate (img.w * img.h) c)
    (hmask : img.mask = none) (hc : sentinelBound < c)
    (hbw : 1 ≤ bw) (hbh : 1 ≤ bh) (hw : 1 ≤ img.w) (hh : 1 ≤ img.h) :
    rawTileStats img bw bh
      = List.replicate (nTiles img.w bw * nTiles img.h bh) (some ((c : ℚ), (0 : ℚ))) := by
  have hnx := nTiles_pos img.w bw hw hbw
  have hall : ∀ s ∈ rawTileStats img bw bh, s = some ((c : ℚ), (0 : ℚ)) := by
    intro s hs
    rw [rawTileStats] at hs
    rcases List.mem_map.mp hs with ⟨t, ht, hEq⟩
    rw [List.mem_range] at ht
    have htx : t % nTiles img.w bw < nTiles img.w bw := Nat.mod_lt _ (by omega)
    have hty : t / nTiles img.w bw < nTiles img.h bh := Nat.div_lt_of_lt_mul ht
    obtain ⟨hrep, hlen⟩ := tileSamples_const img c bw bh _ _ hdata hmask hc hbw hbh htx hty
    rw [← hEq, if_neg (by omega), hrep, tileStats_replicate _ c hlen]
  have hlen : (rawTileStats img bw bh).length
      = nTiles img.w bw * nTiles img.h bh := by
    rw [rawTileStats, List.length_map, List.length_range]
  rw [List.eq_replicate_of_mem hall, hlen]

theorem fillTileStats_const (img : sep_image) (c : ℚ) (bw bh : ℕ)
    (hdata : img.data = List.replicate (img.w * img.h) c)
    (hmask : img.mask = none) (hc : sentinelBound < c)
    (hbw : 1 ≤ bw) (hbh : 1 ≤ bh) (hw : 1 ≤ img.w) (hh : 1 ≤ img.h) :
    fillTileStats img bw bh
      = List.replicate (nTiles img.w bw * nTiles img.h bh) ((c : ℚ), (0 : ℚ)) := by
  rw [fillTileStats, rawTileStats_const img c bw bh hdata hmask hc hbw hbh hw hh,
    List.map_replicate]
  rfl

theorem windowVals_mem (grid : List ℚ) (nx ny fw fh tx ty : ℕ)
    (htx : tx < nx) (hty : ty < ny) (x : ℚ)
    (hx : x ∈ windowVals grid nx ny fw fh tx ty) :
    ∃ i, i < nx * ny ∧ x = grid.getD i 0 := by
  rw [windowVals] at hx
  rcases List.mem_flatten.mp hx with ⟨row, hrow, hxr⟩
  rcases List.mem_map.mp hrow with ⟨dy, hdy, hEq⟩
  rw [← hEq] at hxr
  rcases List.mem_map.mp hxr with ⟨dx, hdx, hEq2⟩
  rw [List.mem_range] at hdy hdx
  refine ⟨(ty - fh / 2 + dy) * nx + (tx - fw / 2 + dx), ?_, hEq2.symm⟩
  have hyb : ty - fh / 2 + dy ≤ ny - 1 := by omega
  have hxb : tx - fw / 2 + dx ≤ nx - 1 := by omega
  calc (ty - fh / 2 + dy) * nx + (tx - fw / 2 + dx)
      < (ty - fh / 2 + dy) * nx + nx := by omega
  _ = (ty - fh / 2 + dy + 1) * nx := by ring
  _ ≤ ny * nx := Nat.mul_le_mul_right nx (by omega)
  _ = nx * ny := Nat.mul_comm _ _

theorem windowVals_nonempty (grid : List ℚ) (nx ny fw fh tx ty : ℕ)
    (htx : tx < nx) (hty : ty < ny) :
    1 ≤ (windowVals grid nx ny fw fh tx ty).length := by
  have hmem : grid.getD ((ty - fh / 2 + 0) * nx + (tx - fw / 2 + 0)) 0
      ∈ windowVals grid nx ny fw fh tx ty := by
    rw [windowVals]
    rw [List.mem_flatten]
    refine ⟨(List.range (min (tx + fw / 2) (nx - 1) + 1 - (tx - fw / 2))).map (fun dx =>
      grid.getD ((ty - fh / 2 + 0) * nx + (tx - fw / 2 + dx)) 0), ?_, ?_⟩
    · exact List.mem_map.mpr ⟨0, List.mem_range.mpr (by omega), rfl⟩
    · exact List.mem_map.mpr ⟨0, List.mem_range.mpr (by omega), rfl⟩
  cases hts : windowVals grid nx ny fw fh tx ty with
  | nil => rw [hts] at hmem; cases hmem
  | cons a t => simp

theorem windowVals_const (v : ℚ) (nx ny fw fh tx ty : ℕ)
    (htx : tx < nx) (hty : ty < ny) :
    medianQ (windowVals (List.replicate (nx * ny) v) nx ny fw fh tx ty) = v := by
  have hrep : windowVals (List.replicate (nx * ny) v) nx ny fw fh tx ty
      = List.replicate (windowVals (List.replicate (nx * ny) v) nx ny fw fh tx ty).length v := by
    apply List.eq_replicate_of_mem
    intro x hx
    rcases windowVals_mem _ nx ny fw fh tx ty htx hty x hx with ⟨i, hi, hEq⟩
    rw [hEq]
    exact getD_replicate _ _ _ _ hi
  rw [hrep, medianQ_replicate _ v]
  exact windowVals_nonempty _ nx ny fw fh tx ty htx hty

theorem medFilterGrid_const (v v2 : ℚ) (nx ny fw fh : ℕ) (fthresh : ℚ)
    (hnx : 1 ≤ nx) (hny : 1 ≤ ny) :
    medFilterGrid (List.replicate (nx * ny) v) (List.replicate (nx * ny) v2)
        nx ny fw fh fthresh
      = List.replicate (nx * ny) v := by
  have hall : ∀ s ∈ medFilterGrid (List.replicate (nx * ny) v)
      (List.replicate (nx * ny) v2) nx ny fw fh fthresh, s = v := by
    intro s hs
    rw [medFilterGrid] at hs
    rcases List.mem_map.mp hs with ⟨t, ht, hEq⟩
    rw [List.mem_range] at ht
    have htx : t % nx < nx := Nat.mod_lt _ (by omega)
    have hty : t / nx < ny := Nat.div_lt_of_lt_mul ht
    rw [← hEq, getD_replicate _ _ _ _ ht, windowVals_const v nx ny fw fh _ _ htx hty,
      ite_self]
  have hlen : (medFilterGrid (List.replicate (nx * ny) v)
      (List.replicate (nx * ny) v2) nx ny fw fh fthresh).length = nx * ny := by
    rw [medFilterGrid, List.length_map, List.length_range]
  rw [List.eq_replicate_of_mem hall, hlen]

theorem triples_replicate (v : ℚ) : ∀ n : ℕ,
    triples (List.replicate n v) = List.replicate (n - 2) (v, v, v)
  | 0 => rfl
  | 1 => rfl
  | 2 => rfl
  | n + 3 => by
      show triples (v :: v :: v :: List.replicate n v) = _
      rw [triples]
      show (v, v, v) :: triples (List.replicate (n + 2) v) = _
      rw [triples_replicate v (n + 2)]
      have h3 : n + 3 - 2 = (n + 2 - 2) + 1 := by omega
      rw [h3, List.replicate_succ]

theorem splineFwd_snd_zero (v : ℚ) : ∀ (m : ℕ) (a : ℚ),
    ∀ x ∈ splineFwd a 0 (List.replicate m (v, v, v)), x.2 = 0
  | 0, a => by
      intro x hx
      cases hx
  | m + 1, a => by
      intro x hx
      rw [List.replicate_succ, splineFwd] at hx
      have hu : (3 * (v - 2 * v + v) - 0 / 2) / (a / 2 + 2) = 0 := by
        have hz : v - 2 * v + v = 0 := by ring
        rw [hz]
        norm_num
      rw [hu] at hx
      rcases List.mem_cons.mp hx with hEq | hmem
      · rw [hEq]
      · exact splineFwd_snd_zero v m _ x hmem

theorem splineFwd_length : ∀ (l : List (ℚ × ℚ × ℚ)) (a u : ℚ),
    (splineFwd a u l).length = l.length
  | [], _, _ => rfl
  | (yl, ym, yr) :: t, a, u => by
      rw [splineFwd, List.length_cons, List.length_cons, splineFwd_length t]

theorem splineBwd_zeros : ∀ l : List (ℚ × ℚ), (∀ x ∈ l, x.2 = 0) →
    splineBwd 0 l = List.replicate l.length 0
  | [], _ => rfl
  | (a, u) :: t, h => by
      rw [splineBwd]
      have hu : u = 0 := h (a, u) (List.mem_cons_self _ _)
      rw [show a * 0 + u = 0 by rw [hu]; ring]
      rw [List.length_cons, List.replicate_succ]
      rw [splineBwd_zeros t (fun x hx => h x (List.mem_cons_of_mem _ hx))]

theorem spline_d2_replicate (v : ℚ) (n : ℕ) :
    spline_d2 (List.replicate n v) = List.replicate n 0 := by
  rw [spline_d2]
  by_cases hn : (List.replicate n v).length ≤ 1
  · rw [if_pos hn, List.length_replicate]
  · rw [if_neg hn]
    rw [List.length_replicate] at hn
    rw [triples_replicate v n]
    have hfwd : ∀ x ∈ (splineFwd 0 0 (List.replicate (n - 2) (v, v, v))).reverse,
        x.2 = 0 := by
      intro x hx
      exact splineFwd_snd_zero v (n - 2) 0 x (List.mem_reverse.mp hx)
    rw [splineBwd_zeros _ hfwd, List.length_reverse,
      splineFwd_length (List.replicate (n - 2) (v, v, v)) 0 0, List.length_replicate,
      List.reverse_replicate, ← List.replicate_succ' (n - 2) (0 : ℚ),
      ← List.replicate_succ]
    congr 1
    omega

theorem splineEval_replicate (v : ℚ) (n : ℕ) (u : ℚ) (hn : 1 ≤ n) :
    splineEval (List.replicate n v) (List.replicate n 0) u = v := by
  rw [splineEval, List.length_replicate]
  rcases Nat.lt_or_ge n 2 with h2 | h2
  · have h1 : n = 1 := by omega
    subst h1
    rw [if_neg (by omega), if_pos rfl]
    exact getD_replicate 1 0 v 0 (by omega)
  · rw [if_neg (by omega), if_neg (by omega)]
    have hklo : splineKlo (List.replicate n v) u ≤ n - 2 := by
      rw [splineKlo, List.length_replicate]
      exact min_le_right _ _
    rw [getD_replicate _ _ _ _ (by omega), getD_replicate _ _ _ _ (by omega),
      getD_replicate _ _ _ _ (by omega), getD_replicate _ _ _ _ (by omega)]
    push_cast
    ring

theorem gridCol_replicate (v : ℚ) (nx ny tx : ℕ) (htx : tx < nx) :
    gridCol (List.replicate (nx * ny) v) nx ny tx = List.replicate ny v := by
  have hall : ∀ s ∈ gridCol (List.replicate (nx * ny) v) nx ny tx, s = v := by
    intro s hs
    rw [gridCol] at hs
    rcases List.mem_map.mp hs with ⟨ty, hty, hEq⟩
    rw [List.mem_range] at hty
    rw [← hEq]
    refine getD_replicate _ _ _ _ ?_
    calc ty * nx + tx < ty * nx + nx := by omega
    _ = (ty + 1) * nx := by ring
    _ ≤ ny * nx := Nat.mul_le_mul_right nx (by omega)
    _ = nx * ny := Nat.mul_comm _ _
  have hlen : (gridCol (List.replicate (nx * ny) v) nx ny tx).length = ny := by
    rw [gridCol, List.length_map, List.length_range]
  rw [List.eq_replicate_of_mem hall, hlen]

theorem bkgBackGrid_const (img : sep_image) (c : ℚ) (bw bh fw fh : ℕ) (fthresh : ℚ)
    (hdata : img.data = List.replicate (img.w * img.h) c)
    (hmask : img.mask = none) (hc : sentinelBound < c)
    (hbw : 1 ≤ bw) (hbh : 1 ≤ bh) (hw : 1 ≤ img.w) (hh : 1 ≤ img.h) :
    bkgBackGrid img bw bh fw fh fthresh
      = List.replicate (nTiles img.w bw * nTiles img.h bh) c := by
  rw [bkgBackGrid, fillTileStats_const img c bw bh hdata hmask hc hbw hbh hw hh,
    List.map_replicate, List.map_replicate]
  exact medFilterGrid_const c 0 _ _ fw fh fthresh
    (nTiles_pos _ _ hw hbw) (nTiles_pos _ _ hh hbh)

theorem bkgVarGrid_const (img : sep_image) (c : ℚ) (bw bh fw fh : ℕ) (fthresh : ℚ)
    (hdata : img.data = List.replicate (img.w * img.h) c)
    (hmask : img.mask = none) (hc : sentinelBound < c)
    (hbw : 1 ≤ bw) (hbh : 1 ≤ bh) (hw : 1 ≤ img.w) (hh : 1 ≤ img.h) :
    bkgVarGrid img bw bh fw fh fthresh
      = List.replicate (nTiles img.w bw * nTiles img.h bh) 0 := by
  rw [bkgVarGrid, fillTileStats_const img c bw bh hdata hmask hc hbw hbh hw hh,
    List.map_replicate]
  exact medFilterGrid_const 0 0 _ _ fw fh fthresh
    (nTiles_pos _ _ hw hbw) (nTiles_pos _ _ hh hbh)

theorem bkgAt_const_fields (b : sep_bkg) (c : ℚ)
    (hback : b.back = List.replicate (b.nx * b.ny) c)
    (hdback : b.dback = (List.range b.nx).map (fun tx =>
      spline_d2 (gridCol b.back b.nx b.ny tx)))
    (hnx : 1 ≤ b.nx) (hny : 1 ≤ b.ny) (x y : ℕ) :
    bkgAt b x y = c := by
  rw [bkgAt, hdback]
  have hcol : ∀ tx, tx < b.nx → gridCol b.back b.nx b.ny tx = List.replicate b.ny c := by
    intro tx htx
    rw [hback]
    exact gridCol_replicate c b.nx b.ny tx htx
  have hnodes : ((List.range b.nx).map (fun tx =>
      splineEval (gridCol b.back b.nx b.ny tx)
        (((List.range b.nx).map (fun tx =>
          spline_d2 (gridCol b.back b.nx b.ny tx))).getD tx [])
        (gridCoord y b.bh))) = List.replicate b.nx c := by
    have hall : ∀ s ∈ (List.range b.nx).map (fun tx =>
        splineEval (gridCol b.back b.nx b.ny tx)
          (((List.range b.nx).map (fun tx =>
            spline_d2 (gridCol b.back b.nx b.ny tx))).getD tx [])
          (gridCoord y b.bh)), s = c := by
      intro s hs
      rcases List.mem_map.mp hs with ⟨tx, htx', hEq⟩
      rw [List.mem_range] at htx'
      rw [← hEq, getD_map_range _ _ _ _ htx', hcol tx htx', spline_d2_replicate,
        splineEval_replicate c b.ny _ hny]
    rw [List.eq_replicate_of_mem hall, List.length_map, List.length_range]
  rw [hnodes, spline_d2_replicate, splineEval_replicate c b.nx _ hnx]

theorem flatten_replicate_replicate {α : Type} (h w : ℕ) (a : α) :
    (List.replicate h (List.replicate w a)).flatten = List.replicate (h * w) a := by
  induction h with
  | zero => simp
  | succ h ih =>
      rw [List.replicate_succ, List.flatten_cons, ih,
        show (h + 1) * w = w + h * w by ring, List.replicate_add]

/-- bkgAt on the model built from a constant image. -/
theorem bkgAt_mkBkg_const (img : sep_image) (c : ℚ) (bw bh fw fh : ℕ) (fthresh : ℚ)
    (hdata : img.data = List.replicate (img.w * img.h) c)
    (hmask : img.mask = none) (hc : sentinelBound < c)
    (hbw : 1 ≤ bw) (hbh : 1 ≤ bh) (hw : 1 ≤ img.w) (hh : 1 ≤ img.h) (x y : ℕ) :
    bkgAt (mkBkg img bw bh fw fh fthresh) x y = c := by
  refine bkgAt_const_fields (mkBkg img bw bh fw fh fthresh) c ?_ rfl
    (nTiles_pos _ _ hw hbw) (nTiles_pos _ _ hh hbh) x y
  show bkgBackGrid img bw bh fw fh fthresh
    = List.replicate (nTiles img.w bw * nTiles img.h bh) c
  exact bkgBackGrid_const img c bw bh fw fh fthresh hdata hmask hc hbw hbh hw hh

/-- C7: for a constant image every pixel of which has value c, the background
model satisfies sep_bkg_global = c, sep_bkg_globalrms = 0, and background
subtraction of a row (sep_bkg_subline) or of the whole image
(sep_bkg_subarray) yields an all-zero image; the model's arithmetic is exact,
so this holds with no floating-point tolerance. -/
theorem constant_image_background (img : sep_image) (c : ℚ) (bw bh fw fh : ℕ)
    (fthresh : ℚ) (heap : ℕ)
    (hdata : img.data = List.replicate (img.w * img.h) c)
    (hmask : img.mask = none) (hc : sentinelBound < c)
    (hbw : 1 ≤ bw) (hbw2 : bw ≤ img.w) (hbh : 1 ≤ bh) (hbh2 : bh ≤ img.h)
    (hdt : img.dtype ∈ supportedDtypes) (hheap : bkgAllocWords img bw bh ≤ heap) :
    sep_background img bw bh fw fh fthresh heap = .ok (mkBkg img bw bh fw fh fthresh)
  ∧ sep_bkg_global (mkBkg img bw bh fw fh fthresh) = c
  ∧ sep_bkg_globalrms (mkBkg img bw bh fw fh fthresh) = 0
  ∧ (∀ y, y < img.h →
      sep_bkg_subline (mkBkg img bw bh fw fh fthresh) y (rowOf img y) SEP_TFLOAT
        = .ok (List.replicate img.w 0))
  ∧ sep_bkg_subarray (mkBkg img bw bh fw fh fthresh) img.data SEP_TFLOAT
      = .ok (List.replicate (img.w * img.h) 0) := by
  have hw : 1 ≤ img.w := le_trans hbw hbw2
  have hh : 1 ≤ img.h := le_trans hbh hbh2
  have hn1 : 1 ≤ nTiles img.w bw * nTiles img.h bh := by
    have := Nat.mul_le_mul (nTiles_pos _ _ hw hbw) (nTiles_pos _ _ hh hbh)
    simpa using this
  have hbkg := bkgAt_mkBkg_const img c bw bh fw fh fthresh hdata hmask hc hbw hbh hw hh
  refine ⟨?_, ?_, ?_, ?_, ?_⟩
  · rw [sep_background, if_neg (by omega : ¬ (img.w < bw ∨ img.h < bh)),
      if_neg (fun hn => hn hdt), if_neg (by omega)]
  · show medianQ (bkgBackGrid img bw bh fw fh fthresh) = c
    rw [bkgBackGrid_const img c bw bh fw fh fthresh hdata hmask hc hbw hbh hw hh]
    exact medianQ_replicate _ c hn1
  · show Real.sqrt ((medianQ (bkgVarGrid img bw bh fw fh fthresh) : ℚ) : ℝ) = 0
    rw [bkgVarGrid_const img c bw bh fw fh fthresh hdata hmask hc hbw hbh hw hh,
      medianQ_replicate _ 0 hn1]
    simp
  · intro y hy
    rw [sep_bkg_subline, if_neg (fun hn => hn (by decide))]
    refine congrArg Except.ok ?_
    have hall : ∀ s ∈ (List.range (mkBkg img bw bh fw fh fthresh).w).map (fun x =>
        (rowOf img y).getD x 0 - bkgAt (mkBkg img bw bh fw fh fthresh) x y), s = 0 := by
      intro s hs
      rcases List.mem_map.mp hs with ⟨x, hx, hEq⟩
      rw [List.mem_range] at hx
      have hx' : x < img.w := hx
      have hrow : (rowOf img y).getD x 0 = c := by
        rw [rowOf, getD_map_range _ _ _ _ hx']
        refine pix_const img c hdata _ ?_
        calc y * img.w + x < y * img.w + img.w := by omega
        _ = (y + 1) * img.w := by ring
        _ ≤ img.h * img.w := Nat.mul_le_mul_right img.w (by omega)
        _ = img.w * img.h := Nat.mul_comm _ _
      rw [← hEq, hrow, hbkg x y, sub_self]
    rw [List.eq_replicate_of_mem hall, List.length_map, List.length_range]
    rfl
  · rw [sep_bkg_subarray, if_neg (fun hn => hn (by decide))]
    refine congrArg Except.ok ?_
    have hrows : ((List.range (mkBkg img bw bh fw fh fthresh).h).map (fun y =>
        (List.range (mkBkg img bw bh fw fh fthresh).w).map (fun x =>
          img.data.getD (y * (mkBkg img bw bh fw fh fthresh).w + x) 0
            - bkgAt (mkBkg img bw bh fw fh fthresh) x y)))
        = List.replicate img.h (List.replicate img.w 0) := by
      have hall : ∀ r ∈ (List.range (mkBkg img bw bh fw fh fthresh).h).map (fun y =>
          (List.range (mkBkg img bw bh fw fh fthresh).w).map (fun x =>
            img.data.getD (y * (mkBkg img bw bh fw fh fthresh).w + x) 0
              - bkgAt (mkBkg img bw bh fw fh fthresh) x y)),
          r = List.replicate img.w 0 := by
        intro r hr
        rcases List.mem_map.mp hr with ⟨y, hy, hEq⟩
        rw [List.mem_range] at hy
        have hy' : y < img.h := hy
        have hall2 : ∀ s ∈ (List.range (mkBkg img bw bh fw fh fthresh).w).map (fun x =>
            img.data.getD (y * (mkBkg img bw bh fw fh fthresh).w + x) 0
              - bkgAt (mkBkg img bw bh fw fh fthresh) x y), s = 0 := by
          intro s hs
          rcases List.mem_map.mp hs with ⟨x, hx, hEq2⟩
          rw [List.mem_range] at hx
          have hx' : x < img.w := hx
          have hdat : img.data.getD (y * img.w + x) 0 = c := by
            rw [hdata]
            refine getD_replicate _ _ _ _ ?_
            calc y * img.w + x < y * img.w + img.w := by omega
            _ = (y + 1) * img.w := by ring
            _ ≤ img.h * img.w := Nat.mul_le_mul_right img.w (by omega)
            _ = img.w * img.h := Nat.mul_comm _ _
          rw [← hEq2]
          show img.data.getD (y * img.w + x) 0 - bkgAt (mkBkg img bw bh fw fh fthresh) x y = 0
          rw [hdat, hbkg x y, sub_self]
        rw [← hEq, List.eq_replicate_of_mem hall2, List.length_map, List.length_range]
        rfl
      rw [List.eq_replicate_of_mem hall, List.length_map, List.length_range]
      rfl
    rw [hrows, flatten_replicate_replicate, Nat.mul_comm]

/-- C8: sep_background reports an error and builds no model whenever the image
width is below the tile width or the image height is below the tile height
(SEP_ILLEGAL_ARG), whenever the element type is unsupported, or whenever the
allocation budget cannot hold the model's coefficient arrays; dually,
requesting background subtraction into an unsupported output dtype fails with
UNSUPPORTED_DTYPE. -/
theorem sep_background_failure (img : sep_image) (bw bh fw fh : ℕ)
    (fthresh : ℚ) (heap : ℕ) :
    ((img.w < bw ∨ img.h < bh) →
      sep_background img bw bh fw fh fthresh heap = .error ILLEGAL_ARG
        ∧ (sep_background img bw bh fw fh fthresh heap).isOk = false)
  ∧ (¬ img.dtype ∈ supportedDtypes →
      (sep_background img bw bh fw fh fthresh heap).isOk = false)
  ∧ (heap < bkgAllocWords img bw bh →
      (sep_background img bw bh fw fh fthresh heap).isOk = false)
  ∧ (∀ (b : sep_bkg) (y : ℕ) (line : List ℚ) (dtype : ℕ),
      ¬ dtype ∈ supportedDtypes →
        sep_bkg_subline b y line dtype = .error UNSUPPORTED_DTYPE
          ∧ sep_bkg_subarray b line dtype = .error UNSUPPORTED_DTYPE) := by
  refine ⟨?_, ?_, ?_, ?_⟩
  · intro hlt
    rw [sep_background, if_pos hlt]
    exact ⟨rfl, rfl⟩
  · intro hdt
    rw [sep_background]
    by_cases hlt : img.w < bw ∨ img.h < bh
    · rw [if_pos hlt]; rfl
    · rw [if_neg hlt, if_pos hdt]; rfl
  · intro hheap
    rw [sep_background]
    by_cases hlt : img.w < bw ∨ img.h < bh
    · rw [if_pos hlt]; rfl
    · rw [if_neg hlt]
      by_cases hdt : ¬ img.dtype ∈ supportedDtypes
      · rw [if_pos hdt]; rfl
      · rw [if_neg hdt, if_pos hheap]; rfl
  · intro b y line dtype hdt
    constructor
    · rw [sep_bkg_subline, if_pos hdt]
    · rw [sep_bkg_subarray, if_pos hdt]

/-!  ### Witnesses: the theorems above applied at the concrete test inputs  -/

theorem sep_extract_deterministic_witness :
    timg = timg ∧ tpar = tpar ∧ tkn = tkn
  ∧ sep_extract timg tpar tkn = sep_extract timg tpar tkn :=
  ⟨rfl, rfl, rfl, sep_extract_deterministic timg timg tpar tpar tkn tkn rfl rfl rfl⟩

theorem catalog_pixels_partition_witness :
    sep_extract timg tpar tkn = .ok tcat
  ∧ (tcat.objectspix.Nodup
     ∧ (∀ p ∈ tcat.objectspix, p < timg.w * timg.h)
     ∧ ((tcat.objects.map SepObj.npix).sum = tcat.objectspix.length)
     ∧ tcat.objects.Pairwise (fun o1 o2 => ∀ p ∈ o1.pix, p ∉ o2.pix)
     ∧ tcat.objectspix = (tcat.objects.map SepObj.pix).flatten) := by
  have hex : sep_extract timg tpar tkn = .ok tcat := by with_unfolding_all rfl
  exact ⟨hex, catalog_pixels_partition timg tpar tkn tcat hex⟩

theorem sep_extract_resource_limits_witness :
    ¬(timg.noise = none ∧ tpar.thresh_type = SEP_THRESH_REL
        ∧ timg.noise_type = SEP_NOISE_NONE)
  ∧ tkn4.pixstack < (abovePixList timg tpar).length
  ∧ sep_extract timg tpar tkn4 = .error PIXSTACK_FULL := by
  have hpre : ¬(timg.noise = none ∧ tpar.thresh_type = SEP_THRESH_REL
      ∧ timg.noise_type = SEP_NOISE_NONE) := by
    intro h
    exact absurd h.2.1 (by decide)
  have hpix : tkn4.pixstack < (abovePixList timg tpar).length := by
    with_unfolding_all decide
  exact ⟨hpre, hpix, ((sep_extract_resource_limits timg tpar tkn4 hpre).1 hpix).1⟩

theorem catalog_ellipse_from_moments_witness :
    sep_extract timg tpar tkn = .ok tcat ∧ tobj ∈ tcat.objects
  ∧ (0 : ℚ) ≤ tobj.x2 ∧ (0 : ℚ) ≤ tobj.y2
  ∧ ((¬ singuTest tobj →
        (objA tobj) ^ 2 = (((tobj.x2 + tobj.y2) / 2 : ℚ) : ℝ)
            + Real.sqrt (((((tobj.x2 - tobj.y2) / 2) ^ 2 + tobj.xy ^ 2 : ℚ) : ℝ))
      ∧ (objB tobj) ^ 2 = (((tobj.x2 + tobj.y2) / 2 : ℚ) : ℝ)
            - Real.sqrt (((((tobj.x2 - tobj.y2) / 2) ^ 2 + tobj.xy ^ 2 : ℚ) : ℝ))
      ∧ objTheta tobj = atan2 (((2 * tobj.xy : ℚ) : ℝ)) (((tobj.x2 - tobj.y2 : ℚ) : ℝ)) / 2
      ∧ tobj.flag &&& SEP_OBJ_SINGU = 0)
  ∧ (singuTest tobj →
        tobj.flag &&& SEP_OBJ_SINGU = SEP_OBJ_SINGU
      ∧ objA tobj = minRadius ∧ objB tobj = minRadius)) := by
  have hex : sep_extract timg tpar tkn = .ok tcat := by with_unfolding_all rfl
  have ho : tobj ∈ tcat.objects := List.mem_singleton.mpr rfl
  have hx2 : (0 : ℚ) ≤ tobj.x2 := by with_unfolding_all decide
  have hy2 : (0 : ℚ) ≤ tobj.y2 := by with_unfolding_all decide
  exact ⟨hex, ho, hx2, hy2,
    catalog_ellipse_from_moments timg tpar tkn tcat hex tobj ho hx2 hy2⟩

theorem ellipse_round_trip_witness :
    (0 : ℝ) < 1 ∧ (1 : ℝ) < 2
  ∧ (0 : ℝ) ∈ Set.Ioc (-(Real.pi / 2)) (Real.pi / 2)
  ∧ sep_ellipse_axes (sep_ellipse_coeffs 2 1 0).1 (sep_ellipse_coeffs 2 1 0).2.1
      (sep_ellipse_coeffs 2 1 0).2.2 = (2, 1, 0) := by
  have hθ : (0 : ℝ) ∈ Set.Ioc (-(Real.pi / 2)) (Real.pi / 2) := by
    have hpi := Real.pi_pos
    constructor
    · linarith
    · linarith
  exact ⟨one_pos, one_lt_two, hθ,
    ellipse_coeffs_axes_round_trip 2 1 0 one_pos one_lt_two hθ⟩

theorem constant_image_background_witness :
    cimg.data = List.replicate (cimg.w * cimg.h) 7 ∧ cimg.mask = none
  ∧ sentinelBound < 7 ∧ 1 ≤ cimg.w ∧ 1 ≤ cimg.h
  ∧ cimg.dtype ∈ supportedDtypes ∧ bkgAllocWords cimg 1 1 ≤ 100
  ∧ (sep_background cimg 1 1 1 1 0 100 = .ok (mkBkg cimg 1 1 1 1 0)
     ∧ sep_bkg_global (mkBkg cimg 1 1 1 1 0) = 7
     ∧ sep_bkg_globalrms (mkBkg cimg 1 1 1 1 0) = 0
     ∧ (∀ y, y < cimg.h →
         sep_bkg_subline (mkBkg cimg 1 1 1 1 0) y (rowOf cimg y) SEP_TFLOAT
           = .ok (List.replicate cimg.w 0))
     ∧ sep_bkg_subarray (mkBkg cimg 1 1 1 1 0) cimg.data SEP_TFLOAT
         = .ok (List.replicate (cimg.w * cimg.h) 0)) := by
  have hc : sentinelBound < (7 : ℚ) := by with_unfolding_all decide
  exact ⟨rfl, rfl, hc, by decide, by decide, by decide, by decide,
    constant_image_background cimg 7 1 1 1 1 0 100 rfl rfl hc
      (by decide) (by decide) (by decide) (by decide) (by decide) (by decide)⟩

theorem sep_background_failure_witness :
    (bimg.w < 2 ∨ bimg.h < 2)
  ∧ (sep_background bimg 2 2 1 1 0 100 = .error ILLEGAL_ARG
     ∧ (sep_background bimg 2 2 1 1 0 100).isOk = false) := by
  have hlt : bimg.w < 2 ∨ bimg.h < 2 := Or.inl (by decide)
  exact ⟨hlt, (sep_background_failure bimg 2 2 1 1 0 100).1 hlt⟩

theorem no_noise_matched_degrades_witness :
    img9.noise = none ∧ img9.noise_type = SEP_NOISE_STDDEV
  ∧ par9.thresh_type = SEP_THRESH_REL
  ∧ (0 : ℚ) ≤ par9.thresh ∧ (0 : ℚ) ≤ img9.noiseval
  ∧ (ladderBase img9 par9 = par9.thresh * img9.noiseval
     ∧ sep_extract img9 par9 tkn
        = sep_extract img9
            { par9 with filter_type := SEP_FILTER_CONV, thresh_type := SEP_THRESH_ABS,
                        thresh := par9.thresh * img9.noiseval } tkn) := by
  have hth : (0 : ℚ) ≤ par9.thresh := by with_unfolding_all decide
  have hnv : (0 : ℚ) ≤ img9.noiseval := by with_unfolding_all decide
  exact ⟨rfl, rfl, rfl, hth, hnv,
    no_noise_matched_degrades img9 par9 tkn rfl rfl rfl hth hnv⟩

theorem catalog_flag_doverflow_clear_witness :
    sep_extract timg tpar tkn = .ok tcat ∧ tobj ∈ tcat.objects
  ∧ tobj.flag &&& SEP_OBJ_DOVERFLOW = 0 := by
  have hex : sep_extract timg tpar tkn = .ok tcat := by with_unfolding_all rfl
  have ho : tobj ∈ tcat.objects := List.mem_singleton.mpr rfl
  exact ⟨hex, ho, catalog_flag_doverflow_clear timg tpar tkn tcat hex tobj ho⟩

end Sep
